import Mathlib

/-!
Shallow embedding of the artist-name normalisation and cross-dataset
matching logic of the grammys-spotify analysis scripts
(`cross_analysis.py`, `grammy_spotify_analysis.py`, `focused_analysis.py`).
Strings are modelled as `List Char`.  The Python regex substitutions are
modelled by executable functions that follow Python `re` semantics,
including the behaviour of `$` (which matches at the end of the string or
just before a trailing newline) and of `.` (which does not match a
newline).
-/

namespace GrammySpotify

/-- Characters of a string literal; the `List Char` view used throughout. -/
def strL (s : String) : List Char := s.data

/-- Python whitespace (`\s`, `str.strip`, `str.isspace`) restricted to the
Latin-1 range of characters that the scripts' CSV inputs contain. -/
def pyIsSpace (c : Char) : Bool :=
  c == ' ' || c == '\t' || c == '\n' || c == '\r' || c == '\x0b' || c == '\x0c' ||
  c == '\x1c' || c == '\x1d' || c == '\x1e' || c == '\x1f' || c == '\x85' || c == '\xa0'

/-- ASCII case folding, modelling Python `str.lower` on the scripts' data. -/
def lowerStr (l : List Char) : List Char := l.map Char.toLower

/-- Case-insensitive "starts with"; regex literal matching under `re.IGNORECASE`. -/
def ciStartsWith : List Char → List Char → Bool
  | [], _ => true
  | _ :: _, [] => false
  | p :: ps, c :: cs => (c.toLower == p.toLower) && ciStartsWith ps cs

/-- `hasPairB o c l` holds when some occurrence of `o` in `l` is followed,
somewhere later in `l`, by an occurrence of `c`: exactly when the regex
used by the scripts to delete `o...c` spans can still match. -/
def hasPairB (o c : Char) : List Char → Bool
  | [] => false
  | x :: xs => (x == o && xs.contains c) || hasPairB o c xs

/-- `ciOcc tok l` holds when the token `tok` occurs (case-insensitively)
as a contiguous run somewhere in `l`. -/
def ciOcc (tok : List Char) : List Char → Bool
  | [] => ciStartsWith tok []
  | c :: rest => ciStartsWith tok (c :: rest) || ciOcc tok rest

/-- Behaviour of the trailing `.*$` of the substitution patterns: `.*`
cannot cross a newline and `$` matches at the end of the string or just
before a final newline.  Given the text following the literal part of the
pattern, returns `some leftover` (the characters the greedy match does not
consume) when `.*$` can match there, and `none` otherwise. -/
def tailAfterMatch (l : List Char) : Option (List Char) :=
  if l.contains '\n' then
    if l.getLast? == some '\n' && !(l.dropLast.contains '\n') then some ['\n'] else none
  else some []

/-- One substitution of the leftmost occurrence of an end-anchored pattern:
`m` reports, for each suffix, whether the pattern matches starting there
and what the match leaves behind.  Models `re.sub(P ++ ".*$", '', s)` for
the suffix-removal patterns of `clean_artist_name` (such a pattern can
match at most once, since it consumes everything up to `$`). -/
def subTrunc (m : List Char → Option (List Char)) : List Char → List Char
  | [] => []
  | c :: rest =>
    match m (c :: rest) with
    | some leftover => leftover
    | none => c :: subTrunc m rest

/-- Matcher for `\s+feat\.` followed by `.*$` (with `re.IGNORECASE`), the
featuring rule of `cross_analysis.clean_artist_name` (line 25). -/
def matchWsFeatDot (l : List Char) : Option (List Char) :=
  let ws := l.takeWhile pyIsSpace
  let rest := l.dropWhile pyIsSpace
  if ws ≠ [] ∧ ciStartsWith (strL "feat.") rest then tailAfterMatch (rest.drop 5) else none

/-- Matcher for `\s+&` followed by `.*$`, the ampersand rule of
`cross_analysis.clean_artist_name` (line 26). -/
def matchWsAmp (l : List Char) : Option (List Char) :=
  if l.takeWhile pyIsSpace ≠ [] ∧ (l.dropWhile pyIsSpace).head? = some '&' then
    tailAfterMatch (l.dropWhile pyIsSpace).tail
  else none

/-- Backtracking over the width of the second `\s+` of `\s+x\s+.*$`:
tries the widths greedily from `k` characters of the whitespace run `ws2`
down to one character. -/
def tryKs : Nat → List Char → List Char → Option (List Char)
  | 0, _, _ => none
  | k + 1, ws2, rest3 =>
    match tailAfterMatch (ws2.drop (k + 1) ++ rest3) with
    | some leftover => some leftover
    | none => tryKs k ws2 rest3

/-- Matcher for `\s+x\s+` followed by `.*$` (with `re.IGNORECASE`), the
" x "-collaboration rule of `cross_analysis.clean_artist_name` (line 27). -/
def matchWsXWs (l : List Char) : Option (List Char) :=
  if l.takeWhile pyIsSpace ≠ [] ∧
      ((l.dropWhile pyIsSpace).headD 'a').toLower = 'x' ∧ l.dropWhile pyIsSpace ≠ [] then
    tryKs ((l.dropWhile pyIsSpace).tail.takeWhile pyIsSpace).length
      ((l.dropWhile pyIsSpace).tail.takeWhile pyIsSpace)
      ((l.dropWhile pyIsSpace).tail.dropWhile pyIsSpace)
  else none

/-- Matcher for `Feat.*$` (with `re.IGNORECASE`), the featuring rule of
`grammy_spotify_analysis.clean_artist_name` (line 78). -/
def matchFeat (l : List Char) : Option (List Char) :=
  if ciStartsWith (strL "feat") l then tailAfterMatch (l.drop 4) else none

/-- Matcher for `Ft\.?.*$` (with `re.IGNORECASE`), the "ft" rule of
`grammy_spotify_analysis.clean_artist_name` (line 79); the optional dot is
tried greedily first. -/
def matchFt (l : List Char) : Option (List Char) :=
  if ciStartsWith (strL "ft") l then
    if (l.drop 2).head? = some '.' then
      match tailAfterMatch (l.drop 2).tail with
      | some leftover => some leftover
      | none => tailAfterMatch (l.drop 2)
    else tailAfterMatch (l.drop 2)
  else none

/-- Matcher for `&.*$`, the ampersand rule of
`grammy_spotify_analysis.clean_artist_name` (line 81). -/
def matchAmp (l : List Char) : Option (List Char) :=
  if l.head? = some '&' then tailAfterMatch l.tail else none

/-- Matcher for `,.*$`, the comma rule of
`grammy_spotify_analysis.clean_artist_name` (line 82). -/
def matchComma (l : List Char) : Option (List Char) :=
  if l.head? = some ',' then tailAfterMatch l.tail else none

/-- Fuelled kernel of `re.sub(r'\(...o[^c]*c...\)', '', s)`: removes every
span from a delimiter `o` to the first following `c`, scanning left to
right, exactly as `re.sub` with the patterns `\([^)]*\)` and `\[[^]]*\]`.
The fuel is an upper bound on the input length, so the wrapper below is
total and kernel-reducible. -/
def removeDelimF (o c : Char) : Nat → List Char → List Char
  | 0, l => l
  | _ + 1, [] => []
  | fuel + 1, x :: rest =>
    if x == o && rest.contains c then
      removeDelimF o c fuel ((rest.dropWhile (fun d => d ≠ c)).tail)
    else
      x :: removeDelimF o c fuel rest

/-- `re.sub` deletion of every `o...c` span (first closing delimiter ends
each span), as used for parentheses and brackets. -/
def removeDelim (o c : Char) (l : List Char) : List Char :=
  removeDelimF o c l.length l

/-- `re.sub(r'\([^)]*\)', '', s)` of both cleaners. -/
def removeParens (l : List Char) : List Char := removeDelim '(' ')' l

/-- `re.sub(r'\[[^]]*\]', '', s)` / `re.sub(r'\[[^\]]*\]', '', s)` of both
cleaners (the two spellings denote the same pattern). -/
def removeBrackets (l : List Char) : List Char := removeDelim '[' ']' l

/-- Fuelled kernel of `re.sub(r'\s+', ' ', s)`: every maximal whitespace
run becomes a single space. -/
def collapseWsF : Nat → List Char → List Char
  | 0, l => l
  | _ + 1, [] => []
  | fuel + 1, c :: rest =>
    if pyIsSpace c then ' ' :: collapseWsF fuel (rest.dropWhile pyIsSpace)
    else c :: collapseWsF fuel rest

/-- `re.sub(r'\s+', ' ', s)` of `grammy_spotify_analysis.clean_artist_name`
(line 83). -/
def collapseWs (l : List Char) : List Char := collapseWsF l.length l

/-- Leading-whitespace removal, the left half of Python `str.strip`. -/
def leftStrip (l : List Char) : List Char := l.dropWhile pyIsSpace

/-- Trailing-whitespace removal, the right half of Python `str.strip`. -/
def rightStrip (l : List Char) : List Char := (l.reverse.dropWhile pyIsSpace).reverse

/-- Python `str.strip()`. -/
def stripWs (l : List Char) : List Char := rightStrip (leftStrip l)

/-- `clean_artist_name` of `cross_analysis.py` (lines 17-30): `None`
becomes the empty string; otherwise parenthesised and bracketed spans are
deleted, then the suffix rules `\s+feat\..*$`, `\s+&.*$` and `\s+x\s+.*$`
are applied in order, and the result is stripped. -/
def clean_artist_name_cross (a : Option (List Char)) : List Char :=
  match a with
  | none => []
  | some s =>
    stripWs (subTrunc matchWsXWs (subTrunc matchWsAmp (subTrunc matchWsFeatDot
      (removeBrackets (removeParens s)))))

/-- `clean_artist_name` of `grammy_spotify_analysis.py` (lines 70-84):
`None` becomes the empty string; otherwise parenthesised and bracketed
spans are deleted, then `Feat.*$`, `Ft\.?.*$`, `&.*$` and `,.*$` are
applied in order, whitespace runs are collapsed to single spaces and the
result is stripped (twice, as in the source). -/
def clean_artist_name_grammy (a : Option (List Char)) : List Char :=
  match a with
  | none => []
  | some s =>
    stripWs (stripWs (collapseWs (subTrunc matchComma (subTrunc matchAmp
      (subTrunc matchFt (subTrunc matchFeat (removeBrackets (removeParens s))))))))

/-- Winner-set membership of `cross_analysis.analyze_grammy_vs_streaming`
(lines 80-84): `spotify_songs['clean_artist'].isin(winners)`, i.e. plain
equality membership of the candidate key in the winner collection. -/
def is_winner_cross (winners : List (List Char)) (k : List Char) : Bool :=
  winners.contains k

/-- Winner-set membership of `grammy_spotify_analysis.cross_analysis`
(lines 144-145): both the winner keys and the candidate key are lowercased
before the `isin` membership test. -/
def is_winner_grammy (winners : List (List Char)) (k : List Char) : Bool :=
  (winners.map lowerStr).contains (lowerStr k)

/-- Leftmost occurrence of the separator `sep` in a string: `some (p, q)`
when the string is `p ++ sep ++ q` with the shown occurrence leftmost,
`none` when `sep` does not occur.  This is the search underlying both
Python `str.split(sep)` and the `sep in s` containment test. -/
def splitFirst (sep : List Char) : List Char → Option (List Char × List Char)
  | [] => if sep.isPrefixOf ([] : List Char) then some ([], []) else none
  | c :: rest =>
    if sep.isPrefixOf (c :: rest) then some ([], (c :: rest).drop sep.length)
    else (splitFirst sep rest).map (fun pq => (c :: pq.1, pq.2))

/-- Python `sep in s` (substring containment). -/
def hasSub (sep l : List Char) : Bool := (splitFirst sep l).isSome

/-- Fuelled kernel of Python `str.split(sep)` for a non-empty separator. -/
def pySplitF (sep : List Char) : Nat → List Char → List (List Char)
  | 0, l => [l]
  | fuel + 1, l =>
    match splitFirst sep l with
    | none => [l]
    | some (p, q) => p :: pySplitF sep fuel q

/-- Python `str.split(sep)` for a non-empty separator: the list of pieces
between consecutive leftmost occurrences of `sep`. -/
def pySplit (sep l : List Char) : List (List Char) := pySplitF sep (l.length + 1) l

/-- The `" - "` delimiter of the combined "Artist and Title" column. -/
def dashSep : List Char := strL " - "

/-- Credit-string splitter of `cross_analysis.load_and_preprocess_data`
(lines 59-67): the artist portion is `x.split(' - ')[0]` and the title
portion is `x.split(' - ')[1] if ' - ' in x else ""` — the second piece of
an unlimited split, not everything after the first delimiter. -/
def split_credit_cross (s : List Char) : List Char × List Char :=
  ((pySplit dashSep s).headD [],
    if hasSub dashSep s then (pySplit dashSep s).getD 1 [] else [])

/-- Credit-string splitter of `focused_analysis.load_and_preprocess_data`
(line 51): `str.split(' - ', n=1, expand=True)` splits at the first
occurrence only; when the delimiter is absent the title column receives a
missing value (`none`), not an empty string. -/
def split_credit_focused (s : List Char) : List Char × Option (List Char) :=
  match splitFirst dashSep s with
  | some (p, q) => (p, some q)
  | none => (s, none)

/-- A streaming-chart row: its canonical artist key and its numeric
streaming metric (`streams_millions`), modelled over `ℚ`. -/
abbrev StreamsRow : Type := List Char × ℚ

/-- Descending order on rows by streaming metric, the order produced by
`sort_values('streams_millions', ascending=False)`. -/
def descRel (a b : StreamsRow) : Prop := b.2 ≤ a.2

instance : DecidableRel descRel := fun a b => inferInstanceAs (Decidable (b.2 ≤ a.2))

instance : IsTotal StreamsRow descRel := ⟨fun a b => le_total b.2 a.2⟩

instance : IsTrans StreamsRow descRel := ⟨fun _ _ _ h1 h2 => le_trans h2 h1⟩

/-- Pandas `Series.quantile(0.9)` with the default linear interpolation:
sort the values, take `h = 0.9 * (n - 1)` and interpolate between the
values at positions `⌊h⌋` and `⌊h⌋ + 1`. -/
def pandasQuantile90 (l : List ℚ) : ℚ :=
  let s := List.insertionSort (fun a b : ℚ => a ≤ b) l
  let h : ℚ := (9 / 10) * ((s.length : ℚ) - 1)
  let i : ℕ := (Int.floor h).toNat
  let lo := s.getD i 0
  lo + (h - (Int.floor h : ℚ)) * (s.getD (i + 1) lo - lo)

/-- The matched partition of `analyze_grammy_vs_streaming` (line 83):
rows whose canonical key is in the winner collection. -/
def matchedRows (winners : List (List Char)) (rows : List StreamsRow) : List StreamsRow :=
  rows.filter (fun r => is_winner_cross winners r.1)

/-- The unmatched partition of `analyze_grammy_vs_streaming` (line 84). -/
def unmatchedRows (winners : List (List Char)) (rows : List StreamsRow) : List StreamsRow :=
  rows.filter (fun r => !is_winner_cross winners r.1)

/-- The overlooked-artists query of `analyze_grammy_vs_streaming`
(lines 113-117): unmatched rows whose metric strictly exceeds the 0.9
quantile of the matched partition's metrics, sorted descending by metric. -/
def overlookedQuery (winners : List (List Char)) (rows : List StreamsRow) : List StreamsRow :=
  List.insertionSort descRel
    ((unmatchedRows winners rows).filter
      (fun r => decide (pandasQuantile90 ((matchedRows winners rows).map Prod.snd) < r.2)))

/-- The bullet-style delimiter of the producers' "Work" field as it
appears (Latin-1-decoded) in `grammy_spotify_analysis.analyze_producers`
(line 179). -/
def bulletSep : List Char := ['\xE2', '\x80', '\xA2']

/-- The suffix of `w` after its last `'('`, i.e. `w.split('(')[-1]`
(the whole string when `'('` is absent). -/
def afterLastOpen (w : List Char) : List Char :=
  (w.reverse.takeWhile (fun d => d ≠ '(')).reverse

/-- Per-piece extraction of `analyze_producers` (lines 182-184): a piece
yields a (work name, artist) record exactly when it contains `'('` and a
`')'` occurs after its last `'('`; the work name is the text before the
first `'('` and the artist is the text between the last `'('` and the
first `')'` after it, both stripped. -/
def processPiece (w : List Char) : Option (List Char × List Char) :=
  if ('(' ∈ w) ∧ (')' ∈ afterLastOpen w) then
    some (stripWs (w.takeWhile (fun d => d ≠ '(')),
      stripWs ((afterLastOpen w).takeWhile (fun d => d ≠ ')')))
  else none

/-- The producer-work extractor of `analyze_producers` (lines 177-191):
split the "Work" field on the bullet delimiter, strip each piece, drop
empty pieces, and extract a record from each remaining piece when
possible. -/
def extractWorks (field : List Char) : List (List Char × List Char) :=
  (((pySplit bulletSep field).map stripWs).filter (fun w => w ≠ [])).filterMap processPiece

/-- `noOccB m l` holds when the pattern matcher `m` fails at every start
position of `l`, i.e. the corresponding `re.sub` leaves `l` unchanged. -/
def noOccB (m : List Char → Option (List Char)) (l : List Char) : Bool :=
  (List.range (l.length + 1)).all (fun i => (m (l.drop i)).isNone)

/-- A string is well-spaced when every whitespace character in it is a
plain space followed by a non-space character: the shape produced by
collapsing whitespace runs and stripping the right end. -/
def goodWs : List Char → Bool
  | [] => true
  | c :: rest => (!pyIsSpace c || (c == ' ' && !pyIsSpace (rest.headD 'A'))) && goodWs rest

/-- Index of the first suffix of the string satisfying `p`. -/
def firstIdxP (p : List Char → Bool) : List Char → Option Nat
  | [] => none
  | c :: rest => if p (c :: rest) then some 0 else (firstIdxP p rest).map (fun i => i + 1)

/-- Position of the first case-insensitive occurrence of `feat` or `ft`. -/
def firstFeatFt : List Char → Option Nat :=
  firstIdxP (fun t => ciStartsWith (strL "feat") t || ciStartsWith (strL "ft") t)

/-- `pref a b` holds when `a` is an initial segment of `b`. -/
def pref (a b : List Char) : Prop := ∃ t, a ++ t = b

/-- C1, counterexample: the matcher of `cross_analysis.py` (plain `isin`)
is case-sensitive, so a candidate that equals a winner key up to case
folding is not reported as a member. -/
theorem claim1_counterexample :
    lowerStr (strL "Artist A") = lowerStr (strL "artist a") ∧
    is_winner_cross [strL "Artist A"] (strL "artist a") = false := by
  constructor <;> rfl

/-- C1, amended: the matcher of `grammy_spotify_analysis.py` decides
membership by case-insensitive exact equality, while the matcher of
`cross_analysis.py` decides it by case-sensitive exact equality; neither
uses substring or fuzzy matching. -/
theorem claim1_matchers_exact_equality (W : List (List Char)) (k : List Char) :
    (is_winner_grammy W k = true ↔ ∃ w ∈ W, lowerStr w = lowerStr k) ∧
    (is_winner_cross W k = true ↔ k ∈ W) := by
  constructor
  · constructor
    · intro h
      have hm : lowerStr k ∈ W.map lowerStr := by
        simpa [is_winner_grammy, List.contains, List.elem_iff] using h
      rcases List.mem_map.mp hm with ⟨w, hw, he⟩
      exact ⟨w, hw, he⟩
    · rintro ⟨w, hw, he⟩
      have hm : lowerStr k ∈ W.map lowerStr := List.mem_map.mpr ⟨w, hw, he⟩
      simpa [is_winner_grammy, List.contains, List.elem_iff] using hm
  · simp [is_winner_cross, List.contains, List.elem_iff]

/-- C3, counterexample: an empty candidate key is reported as a match by
both matchers as soon as the winner collection contains a key that
normalised to the empty string. -/
theorem claim3_counterexample :
    is_winner_cross [([] : List Char)] [] = true ∧
    is_winner_grammy [([] : List Char)] [] = true := by
  constructor <;> rfl

/-- C3, amended: the matchers implement plain set membership with no
special case for the empty key, so an empty candidate key never matches
provided no winner key is empty (for the case-folding matcher: provided
no winner key lowercases to the empty string). -/
theorem claim3_empty_key (W : List (List Char)) :
    (([] : List Char) ∉ W → is_winner_cross W [] = false) ∧
    (([] : List Char) ∉ W.map lowerStr → is_winner_grammy W [] = false) := by
  constructor
  · intro h
    simp only [is_winner_cross]
    exact (Bool.not_eq_true _).mp (fun hc => h (List.elem_iff.mp hc))
  · intro h
    simp only [is_winner_grammy]
    exact (Bool.not_eq_true _).mp (fun hc => h (by
      have := List.elem_iff.mp hc
      simpa [lowerStr] using this))

/-- C3, witness for the amended theorem at a concrete winner set. -/
theorem claim3_empty_key_witness :
    is_winner_cross [strL "Artist A"] [] = false ∧
    is_winner_grammy [strL "Artist A"] [] = false :=
  ⟨(claim3_empty_key _).1 (by decide), (claim3_empty_key _).2 (by decide)⟩

/-- C4, counterexample: the normalizer of `cross_analysis.py` only
removes the marker spelled `feat.` with its period (and preceded by
whitespace); the spelling `feat` without a period is kept. -/
theorem claim4_counterexample :
    clean_artist_name_cross (some (strL "Artist A feat Artist B")) ≠ strL "Artist A" := by
  decide

/-- C4, amended: the normalizer of `grammy_spotify_analysis.py` removes a
trailing featuring marker spelled `feat.`, `feat`, `ft.` or `ft`, while
the normalizer of `cross_analysis.py` removes only the spelling `feat.`
(with the period, preceded by whitespace) and keeps the other spellings. -/
theorem claim4_feat_variants :
    clean_artist_name_grammy (some (strL "Artist A feat. Artist B")) = strL "Artist A" ∧
    clean_artist_name_grammy (some (strL "Artist A feat Artist B")) = strL "Artist A" ∧
    clean_artist_name_grammy (some (strL "Artist A ft. Artist B")) = strL "Artist A" ∧
    clean_artist_name_grammy (some (strL "Artist A ft Artist B")) = strL "Artist A" ∧
    clean_artist_name_cross (some (strL "Artist A feat. Artist B")) = strL "Artist A" ∧
    clean_artist_name_cross (some (strL "Artist A ft. Artist B")) = strL "Artist A ft. Artist B" ∧
    clean_artist_name_cross (some (strL "Artist A ft Artist B")) = strL "Artist A ft Artist B" := by
  refine ⟨?_, ?_, ?_, ?_, ?_, ?_, ?_⟩ <;> rfl

/-- C7, counterexample: in `cross_analysis.py` the ampersand rule is
`\s+&.*$`, so an ampersand not preceded by whitespace is kept. -/
theorem claim7_counterexample :
    clean_artist_name_cross (some (strL "A&B")) ≠ strL "A" := by decide

/-- C7, amended: both normalizers drop a whitespace-preceded ampersand
and everything after it; dropping an arbitrary ampersand (not preceded by
whitespace) is done only by `grammy_spotify_analysis.py`, whose rule is
`&.*$`, while `cross_analysis.py` keeps such an ampersand. -/
theorem claim7_ampersand_variants :
    clean_artist_name_cross (some (strL "Artist A & Artist B")) = strL "Artist A" ∧
    clean_artist_name_grammy (some (strL "Artist A & Artist B")) = strL "Artist A" ∧
    clean_artist_name_grammy (some (strL "A&B")) = strL "A" ∧
    clean_artist_name_cross (some (strL "A&B")) = strL "A&B" := by
  refine ⟨?_, ?_, ?_, ?_⟩ <;> rfl

/-- C2, counterexample: with Python `$` semantics the pattern
`\s+feat\..*$` cannot match `"A feat. B\n\n"` (the suffix after `feat.`
contains a newline that is not final), but `str.strip` then removes both
newlines, so a second normalisation removes ` feat. B`: normalising twice
differs from normalising once. -/
theorem claim2_counterexample :
    clean_artist_name_cross (some (clean_artist_name_cross (some (strL "A feat. B\n\n")))) ≠
      clean_artist_name_cross (some (strL "A feat. B\n\n")) := by
  decide

/-- C10, counterexample: in `"nfeatA\nB"` the first occurrence of `feat`
is at position 1, but `Feat.*$` cannot match there (the rest of the
string contains a non-final newline), so the occurrence survives the
normalizer of `grammy_spotify_analysis.py` instead of being removed. -/
theorem claim10_counterexample :
    clean_artist_name_grammy (some (strL "nfeatA\nB")) = strL "nfeatA B" ∧
    ciOcc (strL "feat") (clean_artist_name_grammy (some (strL "nfeatA\nB"))) = true := by
  constructor <;> rfl

/-- C6, counterexample: `cross_analysis.py` has no rule for the `ft.`
marker, so its normalizer's output can still contain the recognizable
secondary-artist marker `ft.`. -/
theorem claim6_counterexample :
    clean_artist_name_cross (some (strL "Artist A ft. Artist B")) =
      strL "Artist A ft. Artist B" ∧
    ciOcc (strL "ft.") (clean_artist_name_cross (some (strL "Artist A ft. Artist B"))) = true := by
  constructor <;> rfl

/-- C5, counterexample: the splitter of `cross_analysis.py` takes
`x.split(' - ')[1]` as title — the second piece of an unlimited split,
not everything after the first delimiter. -/
theorem claim5_counterexample :
    split_credit_cross (strL "A - B - C") ≠ (strL "A", strL "B - C") := by decide

/-- C9, counterexample: the piece `"a(b)c(d"` contains the complete
parenthesised span `(b)`, yet the extractor discards it because no `')'`
occurs after the piece's last `'('`. -/
theorem claim9_counterexample :
    hasPairB '(' ')' (strL "a(b)c(d") = true ∧ extractWorks (strL "a(b)c(d") = [] := by
  constructor <;> rfl

theorem isPrefixOf_ext {p l : List Char} (t : List Char) (h : p.isPrefixOf l = true) :
    p.isPrefixOf (l ++ t) = true := by
  induction p generalizing l with
  | nil => simp [List.isPrefixOf]
  | cons x xs ih =>
    cases l with
    | nil => simp [List.isPrefixOf] at h
    | cons y ys =>
      simp only [List.cons_append, List.isPrefixOf, Bool.and_eq_true] at h ⊢
      exact ⟨h.1, ih h.2⟩

theorem isPrefixOf_decomp {p l : List Char} (h : p.isPrefixOf l = true) :
    l = p ++ l.drop p.length := by
  induction p generalizing l with
  | nil => simp
  | cons x xs ih =>
    cases l with
    | nil => simp [List.isPrefixOf] at h
    | cons y ys =>
      simp only [List.isPrefixOf, Bool.and_eq_true, beq_iff_eq] at h
      simpa [h.1] using ih h.2

theorem hasSub_none {sep l : List Char} (h : hasSub sep l = false) :
    splitFirst sep l = none := by
  cases hx : splitFirst sep l with
  | none => rfl
  | some v => rw [hasSub, hx] at h; cases h

theorem splitFirst_decomp {sep l pr q : List Char}
    (h : splitFirst sep l = some (pr, q)) : l = pr ++ sep ++ q := by
  induction l generalizing pr with
  | nil =>
    cases sep with
    | nil =>
      simp only [splitFirst, List.isPrefixOf, if_true, Option.some.injEq,
        Prod.mk.injEq] at h
      obtain ⟨h1, h2⟩ := h
      subst h1; subst h2; rfl
    | cons s ss => simp [splitFirst, List.isPrefixOf] at h
  | cons c rest ih =>
    by_cases hp : sep.isPrefixOf (c :: rest) = true
    · simp only [splitFirst, hp, if_true, Option.some.injEq, Prod.mk.injEq] at h
      obtain ⟨h1, h2⟩ := h
      subst h1; subst h2
      simpa using isPrefixOf_decomp hp
    · rw [splitFirst, if_neg hp] at h
      cases hs : splitFirst sep rest with
      | none => rw [hs] at h; cases h
      | some pq =>
        obtain ⟨pr', q'⟩ := pq
        rw [hs] at h
        simp only [Option.map_some', Option.some.injEq, Prod.mk.injEq] at h
        obtain ⟨h1, h2⟩ := h
        subst h2
        rw [← h1]
        simpa using ih hs

theorem splitFirst_len {sep l pr q : List Char} (hsep : sep ≠ [])
    (h : splitFirst sep l = some (pr, q)) : q.length < l.length := by
  have hd := splitFirst_decomp h
  subst hd
  have : 1 ≤ sep.length := by
    cases sep with
    | nil => exact absurd rfl hsep
    | cons s ss => simp
  simp only [List.length_append]
  omega

theorem pySplitF_congr {sep : List Char} (hsep : sep ≠ []) :
    ∀ (f1 f2 : Nat) (l : List Char), l.length < f1 → l.length < f2 →
      pySplitF sep f1 l = pySplitF sep f2 l := by
  intro f1
  induction f1 with
  | zero => intro f2 l h1 _; omega
  | succ n ih =>
    intro f2 l h1 h2
    cases f2 with
    | zero => omega
    | succ m =>
      simp only [pySplitF]
      cases hs : splitFirst sep l with
      | none => rfl
      | some pq =>
        obtain ⟨p, q⟩ := pq
        have hq := splitFirst_len hsep hs
        have : q.length < n := by omega
        have : q.length < m := by omega
        simp only []
        rw [ih m q (by omega) (by omega)]

theorem pySplit_cons {sep l p q : List Char} (hsep : sep ≠ [])
    (h : splitFirst sep l = some (p, q)) : pySplit sep l = p :: pySplit sep q := by
  have hq := splitFirst_len hsep h
  have e1 : pySplit sep l = p :: pySplitF sep l.length q := by
    simp only [pySplit, pySplitF, h]
  rw [e1, pySplit]
  rw [pySplitF_congr hsep l.length (q.length + 1) q (by omega) (by omega)]

theorem pySplit_single {sep l : List Char} (h : splitFirst sep l = none) :
    pySplit sep l = [l] := by
  simp [pySplit, pySplitF, h]

theorem splitFirst_dash_append :
    ∀ (a r : List Char), hasSub dashSep a = false →
      List.isPrefixOf ['-', ' '] a.reverse = false →
      splitFirst dashSep (a ++ dashSep ++ r) = some (a, r) := by
  intro a
  induction a with
  | nil =>
    intro r _ _
    show splitFirst dashSep (([] : List Char) ++ dashSep ++ r) = some ([], r)
    simp only [List.nil_append]
    show splitFirst dashSep (' ' :: '-' :: ' ' :: r) = some ([], r)
    simp [splitFirst, List.isPrefixOf, dashSep, strL]
  | cons c a' ih =>
    intro r h1 h2
    have hnp : ¬ dashSep.isPrefixOf (c :: a' ++ dashSep ++ r) = true := by
      intro hp
      match a' with
      | [] => simp [dashSep, strL, List.isPrefixOf] at hp
      | [d] =>
        have hp' : dashSep.isPrefixOf (c :: d :: ' ' :: '-' :: ' ' :: r) = true := by
          simpa [dashSep, strL] using hp
        simp only [dashSep, strL, List.isPrefixOf, Bool.and_eq_true, beq_iff_eq,
          String.data] at hp'
        obtain ⟨hc, hd, -⟩ := hp'
        subst hc; subst hd
        exact absurd h2 (by decide)
      | d :: e :: a'' =>
        have hp' : dashSep.isPrefixOf (c :: d :: e :: (a'' ++ dashSep ++ r)) = true := by
          simpa [dashSep, strL] using hp
        simp only [dashSep, strL, List.isPrefixOf, Bool.and_eq_true, beq_iff_eq,
          String.data] at hp'
        obtain ⟨hc, hd, he, -⟩ := hp'
        subst hc; subst hd; subst he
        have hpre : dashSep.isPrefixOf (' ' :: '-' :: ' ' :: a'') = true := by
          simp [dashSep, strL, List.isPrefixOf]
        have hsome : splitFirst dashSep (' ' :: '-' :: ' ' :: a'') =
            some ([], (' ' :: '-' :: ' ' :: a'').drop dashSep.length) := by
          rw [splitFirst, if_pos hpre]
        rw [hasSub, hsome] at h1
        cases h1
    have h1' : hasSub dashSep a' = false := by
      have hn := hasSub_none h1
      rw [splitFirst] at hn
      by_cases hq : dashSep.isPrefixOf (c :: a') = true
      · rw [if_pos hq] at hn; cases hn
      · rw [if_neg hq] at hn
        rw [hasSub]
        cases hx : splitFirst dashSep a' with
        | none => rfl
        | some v => rw [hx] at hn; cases hn
    have h2' : List.isPrefixOf ['-', ' '] a'.reverse = false := by
      cases hv : List.isPrefixOf ['-', ' '] a'.reverse with
      | false => rfl
      | true =>
        have hext := isPrefixOf_ext [c] hv
        rw [List.reverse_cons, hext] at h2
        exact h2
    have hstep : splitFirst dashSep ((c :: a') ++ dashSep ++ r) =
        (splitFirst dashSep (a' ++ dashSep ++ r)).map (fun pq => (c :: pq.1, pq.2)) := by
      simp only [List.cons_append]
      rw [splitFirst, if_neg (by simpa using hnp)]
    rw [hstep, ih r h1' h2']
    rfl

/-- C5, amended: both splitters split on `" - "`, but they differ on
multiple delimiters and on absence: `focused_analysis.py` splits at the
first occurrence, keeping all remaining text as the title, and yields a
missing title (not an empty string) when the delimiter is absent;
`cross_analysis.py` takes the first and second pieces of an unlimited
split, so text after a second delimiter is dropped, and yields an empty
title when the delimiter is absent. -/
theorem claim5_split_credit (s a b r : List Char)
    (hs : hasSub dashSep s = false)
    (ha1 : hasSub dashSep a = false)
    (ha2 : List.isPrefixOf ['-', ' '] a.reverse = false)
    (hb : hasSub dashSep b = false) :
    split_credit_cross s = (s, []) ∧
    split_credit_focused s = (s, none) ∧
    split_credit_focused (a ++ dashSep ++ r) = (a, some r) ∧
    split_credit_cross (a ++ dashSep ++ b) = (a, b) := by
  have hsn : splitFirst dashSep s = none := hasSub_none hs
  have hbn : splitFirst dashSep b = none := hasSub_none hb
  have hdne : dashSep ≠ [] := by simp [dashSep, strL]
  have hsp := splitFirst_dash_append a r ha1 ha2
  have hsb := splitFirst_dash_append a b ha1 ha2
  have hsp' : splitFirst dashSep (a ++ (dashSep ++ r)) = some (a, r) := by
    rw [← List.append_assoc]; exact hsp
  have hsb' : splitFirst dashSep (a ++ (dashSep ++ b)) = some (a, b) := by
    rw [← List.append_assoc]; exact hsb
  have hps : pySplit dashSep (a ++ (dashSep ++ b)) = [a, b] := by
    rw [← List.append_assoc, pySplit_cons hdne hsb, pySplit_single hbn]
  refine ⟨?_, ?_, ?_, ?_⟩
  · simp [split_credit_cross, hasSub, hsn, pySplit_single hsn]
  · simp [split_credit_focused, hsn]
  · simp [split_credit_focused, hsp']
  · simp [split_credit_cross, hasSub, hsb', hps]

/-- C5, witness for the amended theorem at concrete credit strings. -/
theorem claim5_split_credit_witness :
    split_credit_cross (strL "Artist A") = (strL "Artist A", []) ∧
    split_credit_focused (strL "Artist A") = (strL "Artist A", none) ∧
    split_credit_focused (strL "Artist A" ++ dashSep ++ strL "B - C") =
      (strL "Artist A", some (strL "B - C")) ∧
    split_credit_cross (strL "Artist A" ++ dashSep ++ strL "Song Title") =
      (strL "Artist A", strL "Song Title") := by
  have h := claim5_split_credit (strL "Artist A") (strL "Artist A") (strL "Song Title")
    (strL "B - C") (by decide) (by decide) (by decide) (by decide)
  exact ⟨h.1, h.2.1, h.2.2.1, h.2.2.2⟩

/-- C8: the overlooked-artists query returns exactly (as a multiset) the
unmatched rows whose metric strictly exceeds the 0.9 quantile of the
matched partition's metrics, ordered descending by metric.  The
hypothesis mirrors the `if not spotify_winners.empty` guard under which
the code computes the quantile. -/
theorem claim8_overlooked_query (winners : List (List Char)) (rows : List StreamsRow)
    (_hm : matchedRows winners rows ≠ []) :
    List.Perm (overlookedQuery winners rows)
      (rows.filter (fun r => (!is_winner_cross winners r.1) &&
        decide (pandasQuantile90 ((matchedRows winners rows).map Prod.snd) < r.2))) ∧
    List.Pairwise descRel (overlookedQuery winners rows) := by
  constructor
  · have h1 := List.perm_insertionSort descRel
      ((unmatchedRows winners rows).filter
        (fun r => decide (pandasQuantile90 ((matchedRows winners rows).map Prod.snd) < r.2)))
    refine h1.trans ?_
    rw [unmatchedRows, List.filter_filter]
    have hcomm : ∀ rr ∈ rows,
        (decide (pandasQuantile90 ((matchedRows winners rows).map Prod.snd) < rr.2) &&
          !is_winner_cross winners rr.1) =
        ((!is_winner_cross winners rr.1) &&
          decide (pandasQuantile90 ((matchedRows winners rows).map Prod.snd) < rr.2)) :=
      fun rr _ => Bool.and_comm _ _
    rw [List.filter_congr hcomm]
  · exact List.sorted_insertionSort descRel _

/-- C8, witness: the spec's example, matched metrics `[10, 20, 5]` and
unmatched metrics `[100, 1]`; the 0.9 quantile of the matched partition
is 18 and the query returns exactly the unmatched row with metric 100. -/
theorem claim8_overlooked_query_witness :
    matchedRows [strL "Artist A"]
      [(strL "Artist A", 10), (strL "Artist A", 20), (strL "Artist A", 5),
        (strL "B", 100), (strL "C", 1)] ≠ [] ∧
    (List.Perm (overlookedQuery [strL "Artist A"]
        [(strL "Artist A", 10), (strL "Artist A", 20), (strL "Artist A", 5),
          (strL "B", 100), (strL "C", 1)])
      (List.filter (fun r => (!is_winner_cross [strL "Artist A"] r.1) &&
          decide (pandasQuantile90 ((matchedRows [strL "Artist A"]
            [(strL "Artist A", 10), (strL "Artist A", 20), (strL "Artist A", 5),
              (strL "B", 100), (strL "C", 1)]).map Prod.snd) < r.2))
        [(strL "Artist A", 10), (strL "Artist A", 20), (strL "Artist A", 5),
          (strL "B", 100), (strL "C", 1)]) ∧
      List.Pairwise descRel (overlookedQuery [strL "Artist A"]
        [(strL "Artist A", 10), (strL "Artist A", 20), (strL "Artist A", 5),
          (strL "B", 100), (strL "C", 1)])) ∧
    overlookedQuery [strL "Artist A"]
      [(strL "Artist A", 10), (strL "Artist A", 20), (strL "Artist A", 5),
        (strL "B", 100), (strL "C", 1)] = [(strL "B", 100)] := by
  refine ⟨by decide, claim8_overlooked_query _ _ (by decide), ?_⟩
  have hsort : List.insertionSort (fun a b : ℚ => a ≤ b) [10, 20, 5] = [5, 10, 20] := by
    decide
  have hmr : (matchedRows [strL "Artist A"]
      [(strL "Artist A", 10), (strL "Artist A", 20), (strL "Artist A", 5),
        (strL "B", 100), (strL "C", 1)]).map Prod.snd = [10, 20, 5] := by decide
  have hq : pandasQuantile90 [10, 20, 5] = 18 := by
    rw [pandasQuantile90]
    rw [hsort]
    norm_num
  rw [overlookedQuery, hmr, hq]
  decide

theorem takeWhile_append_stop {p : Char → Bool} (y : Char) (v : List Char) (hy : p y = false) :
    ∀ u : List Char, (∀ x ∈ u, p x = true) → ((u ++ y :: v).takeWhile p) = u
  | [], _ => by simp [List.takeWhile_cons, hy]
  | x :: xs, hu => by
    have hx : p x = true := hu x (List.mem_cons_self x xs)
    simp only [List.cons_append, List.takeWhile_cons, hx, if_true]
    rw [takeWhile_append_stop y v hy xs (fun z hz => hu z (List.mem_cons_of_mem x hz))]

theorem afterLastOpen_append (a b : List Char) (hb : '(' ∉ b) :
    afterLastOpen (a ++ '(' :: b) = b := by
  have hball : ∀ x ∈ b.reverse, (decide (x ≠ '(')) = true := by
    intro x hx
    have hxb : x ∈ b := List.mem_reverse.mp hx
    simp only [decide_eq_true_eq]
    intro he; subst he; exact hb hxb
  have hyp : (decide (('(' : Char) ≠ '(')) = false := by decide
  rw [afterLastOpen, List.reverse_append, List.reverse_cons, List.append_assoc]
  simp only [List.singleton_append]
  rw [takeWhile_append_stop '(' a.reverse hyp b.reverse hball, List.reverse_reverse]

/-- C9, amended: a piece of the bullet-split "Work" field yields a record
exactly when a `')'` occurs after the piece's last `'('` (the presence of
an earlier complete parenthesised span is not enough); the work name is
the stripped text before the piece's first `'('` and the artist is the
stripped text between the last `'('` and the first `')'` after it.  The
piece `w` is arbitrary and may contain several parenthesised spans: `a`
is its segment before the first `'('` (forced by `'(' ∉ a`), while `b`
sits after the last `'('` (forced by `'(' ∉ b` and `'(' ∉ c`) and before
the first `')'` from there (forced by `')' ∉ b`); the two decompositions
of `w` need not coincide, so the theorem separates the first-`'('` work
name from the last-`'('` artist, e.g. `"x(y)z(w)v" ↦ ("x", "w")`. -/
theorem claim9_piece_extraction (w a r e b c a2 d : List Char)
    (hw1 : w = a ++ '(' :: r) (ha : '(' ∉ a)
    (hw2 : w = e ++ '(' :: (b ++ ')' :: c))
    (hb1 : '(' ∉ b) (hb2 : ')' ∉ b) (hc : '(' ∉ c)
    (hd1 : '(' ∉ d) (hd2 : ')' ∉ d) :
    processPiece w = some (stripWs a, stripWs b) ∧
    processPiece (a2 ++ '(' :: d) = none := by
  constructor
  · have hnb : '(' ∉ b ++ ')' :: c := by
      intro hx
      rcases List.mem_append.mp hx with h | h
      · exact hb1 h
      · rcases List.mem_cons.mp h with h | h
        · cases h
        · exact hc h
    have hAL : afterLastOpen w = b ++ ')' :: c := by
      rw [hw2]
      exact afterLastOpen_append _ _ hnb
    have hmem : '(' ∈ w := by rw [hw1]; simp
    have hmem2 : ')' ∈ afterLastOpen w := by
      rw [hAL]; simp
    have haall : ∀ x ∈ a, (decide (x ≠ '(')) = true := by
      intro x hx
      simp only [decide_eq_true_eq]
      intro he; subst he; exact ha hx
    have hball : ∀ x ∈ b, (decide (x ≠ ')')) = true := by
      intro x hx
      simp only [decide_eq_true_eq]
      intro he; subst he; exact hb2 hx
    have e1 : w.takeWhile (fun x => x ≠ '(') = a := by
      rw [hw1]
      exact takeWhile_append_stop '(' r (by decide) a haall
    have e2 : (b ++ ')' :: c).takeWhile (fun x => x ≠ ')') = b :=
      takeWhile_append_stop ')' c (by decide) b hball
    rw [processPiece, if_pos ⟨hmem, hmem2⟩, hAL, e1, e2]
  · have hAL : afterLastOpen (a2 ++ '(' :: d) = d := afterLastOpen_append _ _ hd1
    rw [processPiece, if_neg]
    intro hcon
    exact hd2 (hAL ▸ hcon.2)

/-- C9, witness for the amended theorem at a concrete piece with two
parenthesised spans: the work name comes from before the first `'('` and
the artist from inside the last one, so `"x(y)z(w)v"` yields
`("x", "w")` — not `("x(y)z", "y")` or any mixed reading. -/
theorem claim9_piece_extraction_witness :
    processPiece (strL "x(y)z(w)v") = some (strL "x", strL "w") ∧
    processPiece (strL "a(b)c" ++ '(' :: strL "d") = none := by
  have h := claim9_piece_extraction (strL "x(y)z(w)v") (strL "x") (strL "y)z(w)v")
    (strL "x(y)z") (strL "w") (strL "v") (strL "a(b)c") (strL "d")
    (by decide) (by decide) (by decide) (by decide) (by decide) (by decide)
    (by decide) (by decide)
  refine ⟨?_, h.2⟩
  rw [h.1]
  rfl

theorem pref_rfl (l : List Char) : pref l l := ⟨[], List.append_nil l⟩

theorem pref_cons {t l : List Char} (c : Char) (h : pref t l) : pref (c :: t) (c :: l) := by
  obtain ⟨u, rfl⟩ := h
  exact ⟨u, rfl⟩

theorem pref_trans {a b c : List Char} (h1 : pref a b) (h2 : pref b c) : pref a c := by
  obtain ⟨u, rfl⟩ := h1
  obtain ⟨v, rfl⟩ := h2
  exact ⟨u ++ v, (List.append_assoc a u v).symm⟩

theorem pref_sub {t l : List Char} (h : pref t l) : List.Sublist t l := by
  obtain ⟨u, rfl⟩ := h
  exact List.sublist_append_left t u

theorem pref_take {t l : List Char} (h : pref t l) : t = l.take t.length := by
  obtain ⟨u, rfl⟩ := h
  exact (List.take_left t u).symm

theorem pref_drop_mono {t l : List Char} (i : Nat) (h : pref t l) :
    pref (t.drop i) (l.drop i) := by
  obtain ⟨u, rfl⟩ := h
  exact ⟨u.drop (i - t.length), (List.drop_append_eq_append_drop ..).symm⟩

theorem nf_sub {t l : List Char} (h : List.Sublist t l) (hn : '\n' ∉ l) : '\n' ∉ t :=
  fun hm => hn (h.subset hm)

theorem contains_eq_false {a : Char} {l : List Char} (h : a ∉ l) : l.contains a = false := by
  cases hc : l.contains a
  · rfl
  · exact absurd (List.elem_iff.mp hc) h

theorem tam_nf {l : List Char} (h : '\n' ∉ l) : tailAfterMatch l = some [] := by
  rw [tailAfterMatch, contains_eq_false h]
  simp

theorem ciSW_ext {tok l : List Char} (ext : List Char) (h : ciStartsWith tok l = true) :
    ciStartsWith tok (l ++ ext) = true := by
  induction tok generalizing l with
  | nil => rfl
  | cons p ps ih =>
    cases l with
    | nil => cases h
    | cons c cs =>
      rw [List.cons_append]
      rw [ciStartsWith] at h ⊢
      rw [Bool.and_eq_true] at h ⊢
      exact ⟨h.1, ih h.2⟩

theorem ciSW_pre {tok t l : List Char} (h : pref t l) (hc : ciStartsWith tok t = true) :
    ciStartsWith tok l = true := by
  obtain ⟨u, rfl⟩ := h
  exact ciSW_ext u hc

theorem ciSW_take {tok l : List Char} {n : Nat} (h : ciStartsWith tok l = true)
    (hn : tok.length ≤ n) : ciStartsWith tok (l.take n) = true := by
  induction tok generalizing l n with
  | nil => rfl
  | cons p ps ih =>
    cases l with
    | nil => cases h
    | cons c cs =>
      cases n with
      | zero => simp at hn
      | succ m =>
        rw [List.take_succ_cons]
        rw [ciStartsWith] at h ⊢
        rw [Bool.and_eq_true] at h ⊢
        exact ⟨h.1, ih h.2 (by simpa using hn)⟩

theorem ciSW_cases {p : Char} {ps l : List Char} (h : ciStartsWith (p :: ps) l = true) :
    ∃ c cs, l = c :: cs ∧ c.toLower = p.toLower ∧ ciStartsWith ps cs = true := by
  cases l with
  | nil => cases h
  | cons c cs =>
    rw [ciStartsWith, Bool.and_eq_true, beq_iff_eq] at h
    exact ⟨c, cs, rfl, h.1, h.2⟩

theorem tw_dw_append {p : Char → Bool} {l : List Char} (ext : List Char)
    (h : l.dropWhile p ≠ []) :
    (l ++ ext).takeWhile p = l.takeWhile p ∧ (l ++ ext).dropWhile p = l.dropWhile p ++ ext := by
  induction l with
  | nil => exact absurd rfl h
  | cons c r ih =>
    cases hpc : p c with
    | true =>
      rw [List.dropWhile_cons_of_pos hpc] at h
      rw [List.cons_append, List.takeWhile_cons_of_pos hpc, List.dropWhile_cons_of_pos hpc,
        List.takeWhile_cons_of_pos hpc, List.dropWhile_cons_of_pos hpc]
      exact ⟨by rw [(ih h).1], (ih h).2⟩
    | false =>
      rw [List.cons_append, List.takeWhile_cons_of_neg (by rw [hpc]; exact Bool.false_ne_true), List.dropWhile_cons_of_neg (by rw [hpc]; exact Bool.false_ne_true),
        List.takeWhile_cons_of_neg (by rw [hpc]; exact Bool.false_ne_true), List.dropWhile_cons_of_neg (by rw [hpc]; exact Bool.false_ne_true), List.cons_append]
      exact ⟨rfl, rfl⟩

theorem dropWhile_head_prop {p : Char → Bool} {l : List Char} {h : Char}
    (hh : (l.dropWhile p).head? = some h) : p h = false := by
  induction l with
  | nil => cases hh
  | cons c r ih =>
    cases hpc : p c with
    | true => rw [List.dropWhile_cons_of_pos hpc] at hh; exact ih hh
    | false =>
      rw [List.dropWhile_cons_of_neg (by rw [hpc]; exact Bool.false_ne_true)] at hh
      cases hh
      exact hpc

theorem dropWhile_eq_self_of_head {p : Char → Bool} {l : List Char}
    (hh : ∀ h, l.head? = some h → p h = false) : l.dropWhile p = l := by
  cases l with
  | nil => rfl
  | cons c r => exact List.dropWhile_cons_of_neg (by rw [hh c rfl]; exact Bool.false_ne_true)

theorem dropWhile_idem {p : Char → Bool} (l : List Char) :
    (l.dropWhile p).dropWhile p = l.dropWhile p :=
  dropWhile_eq_self_of_head (fun _ hh => dropWhile_head_prop hh)

theorem leftStrip_eq_drop (l : List Char) : ∃ k, leftStrip l = l.drop k := by
  induction l with
  | nil => exact ⟨0, rfl⟩
  | cons c r ih =>
    cases hpc : pyIsSpace c with
    | true =>
      obtain ⟨k, hk⟩ := ih
      exact ⟨k + 1, by rw [leftStrip, List.dropWhile_cons_of_pos hpc, List.drop_succ_cons, ← hk]; rfl⟩
    | false => exact ⟨0, by rw [leftStrip, List.dropWhile_cons_of_neg (by rw [hpc]; exact Bool.false_ne_true)]; rfl⟩

theorem rightStrip_pref (l : List Char) : pref (rightStrip l) l := by
  refine ⟨(l.reverse.takeWhile pyIsSpace).reverse, ?_⟩
  rw [rightStrip, ← List.reverse_append (l.reverse.takeWhile pyIsSpace) (l.reverse.dropWhile pyIsSpace)]
  rw [List.takeWhile_append_dropWhile pyIsSpace l.reverse, List.reverse_reverse]

theorem strip_sub (l : List Char) : List.Sublist (stripWs l) l := by
  have h1 : List.Sublist (leftStrip l) l := List.dropWhile_sublist pyIsSpace
  exact (pref_sub (rightStrip_pref (leftStrip l))).trans h1

theorem leftStrip_head {l : List Char} {h : Char} (hh : (leftStrip l).head? = some h) :
    pyIsSpace h = false :=
  dropWhile_head_prop hh

theorem leftStrip_of_head {l : List Char}
    (hh : ∀ h, l.head? = some h → pyIsSpace h = false) : leftStrip l = l :=
  dropWhile_eq_self_of_head hh

theorem rightStrip_idem (l : List Char) : rightStrip (rightStrip l) = rightStrip l := by
  rw [rightStrip, rightStrip, List.reverse_reverse, dropWhile_idem]

theorem head_of_pref {t l : List Char} (h : pref t l) (hne : t ≠ []) : t.head? = l.head? := by
  obtain ⟨u, rfl⟩ := h
  cases t with
  | nil => exact absurd rfl hne
  | cons c r => rfl

theorem leftStrip_rightStrip (l : List Char) :
    leftStrip (rightStrip (leftStrip l)) = rightStrip (leftStrip l) := by
  apply leftStrip_of_head
  intro h hh
  cases hm : rightStrip (leftStrip l) with
  | nil => rw [hm] at hh; cases hh
  | cons c r =>
    have hne : rightStrip (leftStrip l) ≠ [] := by rw [hm]; exact List.cons_ne_nil c r
    have := head_of_pref (rightStrip_pref (leftStrip l)) hne
    rw [this] at hh
    exact leftStrip_head hh

theorem strip_strip (l : List Char) : stripWs (stripWs l) = stripWs l := by
  rw [stripWs, stripWs, leftStrip_rightStrip, rightStrip_idem]

theorem removeDelimF_sub (o c : Char) : ∀ (fuel : Nat) (l : List Char),
    List.Sublist (removeDelimF o c fuel l) l
  | 0, l => List.Sublist.refl l
  | _ + 1, [] => List.Sublist.refl []
  | fuel + 1, x :: rest => by
    rw [removeDelimF]
    by_cases hc : (x == o && rest.contains c) = true
    · rw [if_pos hc]
      have h1 := removeDelimF_sub o c fuel ((rest.dropWhile (fun d => d ≠ c)).tail)
      have h2 : List.Sublist ((rest.dropWhile (fun d => d ≠ c)).tail) rest :=
        (List.tail_sublist _).trans (List.dropWhile_sublist _)
      exact (h1.trans h2).trans (List.sublist_cons_self x rest)
    · rw [if_neg hc]
      exact (removeDelimF_sub o c fuel rest).cons₂ x

theorem removeDelimF_noPair (o c : Char) : ∀ (fuel : Nat) (l : List Char),
    l.length ≤ fuel → hasPairB o c (removeDelimF o c fuel l) = false
  | 0, l => fun h => by
    have hl : l = [] := List.eq_nil_of_length_eq_zero (Nat.le_zero.mp h)
    subst hl; rfl
  | _ + 1, [] => fun _ => rfl
  | fuel + 1, x :: rest => fun hlen => by
    have hrl : rest.length ≤ fuel := by
      have : (x :: rest).length = rest.length + 1 := rfl
      omega
    rw [removeDelimF]
    by_cases hc : (x == o && rest.contains c) = true
    · rw [if_pos hc]
      have hsub : List.Sublist ((rest.dropWhile (fun d => d ≠ c)).tail) rest :=
        (List.tail_sublist _).trans (List.dropWhile_sublist _)
      exact removeDelimF_noPair o c fuel _ (le_trans hsub.length_le hrl)
    · rw [if_neg hc]
      rw [hasPairB]
      have hR := removeDelimF_noPair o c fuel rest hrl
      cases hxo : x == o with
      | false => rw [Bool.false_and, Bool.false_or]; exact hR
      | true =>
        have hcr : rest.contains c = false := by
          cases hcc : rest.contains c
          · rfl
          · exact absurd (by rw [hxo, hcc]; rfl) hc
        have hcR : (removeDelimF o c fuel rest).contains c = false :=
          contains_eq_false (fun hm => by
            have hmr := (removeDelimF_sub o c fuel rest).subset hm
            have hct : rest.contains c = true := List.elem_iff.mpr hmr
            rw [hct] at hcr
            cases hcr)
        rw [Bool.true_and, hcR, Bool.false_or]
        exact hR

theorem removeDelimF_fix (o c : Char) : ∀ (fuel : Nat) (l : List Char),
    hasPairB o c l = false → removeDelimF o c fuel l = l
  | 0, _ => fun _ => rfl
  | _ + 1, [] => fun _ => rfl
  | fuel + 1, x :: rest => fun hp => by
    rw [hasPairB] at hp
    have h1 : (x == o && rest.contains c) = false := by
      cases h : (x == o && rest.contains c)
      · rfl
      · rw [h, Bool.true_or] at hp; exact hp
    have h2 : hasPairB o c rest = false := by
      cases h : hasPairB o c rest
      · rfl
      · rw [h, Bool.or_true] at hp; exact hp
    rw [removeDelimF, if_neg (by rw [h1]; exact Bool.false_ne_true),
      removeDelimF_fix o c fuel rest h2]

theorem removeDelim_sub (o c : Char) (l : List Char) :
    List.Sublist (removeDelim o c l) l :=
  removeDelimF_sub o c l.length l

theorem removeDelim_noPair (o c : Char) (l : List Char) :
    hasPairB o c (removeDelim o c l) = false :=
  removeDelimF_noPair o c l.length l (le_refl _)

theorem removeDelim_fix {o c : Char} {l : List Char} (h : hasPairB o c l = false) :
    removeDelim o c l = l :=
  removeDelimF_fix o c l.length l h

theorem subTrunc_pref {m : List Char → Option (List Char)}
    (hnf : ∀ l u, '\n' ∉ l → m l = some u → u = []) :
    ∀ {l : List Char}, '\n' ∉ l → pref (subTrunc m l) l := by
  intro l
  induction l with
  | nil => intro _; exact pref_rfl []
  | cons ch rest ih =>
    intro hn
    rw [subTrunc]
    cases hm : m (ch :: rest) with
    | some u =>
      rw [hnf _ _ hn hm]
      exact ⟨ch :: rest, rfl⟩
    | none =>
      exact pref_cons ch (ih (fun hx => hn (List.mem_cons_of_mem ch hx)))

theorem subTrunc_noMatch {m : List Char → Option (List Char)}
    (hnil : m [] = none)
    (hnf : ∀ l u, '\n' ∉ l → m l = some u → u = [])
    (hmono : ∀ t t', pref t' t → '\n' ∉ t → (m t').isSome = true → (m t).isSome = true) :
    ∀ {l : List Char}, '\n' ∉ l → ∀ i, m ((subTrunc m l).drop i) = none := by
  intro l
  induction l with
  | nil => intro _ i; rw [subTrunc, List.drop_nil]; exact hnil
  | cons ch rest ih =>
    intro hn i
    have hnrest : '\n' ∉ rest := fun hx => hn (List.mem_cons_of_mem ch hx)
    rw [subTrunc]
    cases hm : m (ch :: rest) with
    | some u =>
      rw [hnf _ _ hn hm, List.drop_nil]
      exact hnil
    | none =>
      cases i with
      | zero =>
        rw [List.drop_zero]
        cases hmt : m (ch :: subTrunc m rest) with
        | none => rfl
        | some u =>
          exfalso
          have hp : pref (ch :: subTrunc m rest) (ch :: rest) :=
            pref_cons ch (subTrunc_pref hnf hnrest)
          have hiss := hmono (ch :: rest) (ch :: subTrunc m rest) hp hn (by rw [hmt]; rfl)
          rw [hm] at hiss
          cases hiss
      | succ j =>
        rw [List.drop_succ_cons]
        exact ih hnrest j

theorem subTrunc_id {m : List Char → Option (List Char)} :
    ∀ {l : List Char}, (∀ i, m (l.drop i) = none) → subTrunc m l = l := by
  intro l
  induction l with
  | nil => intro _; rfl
  | cons ch rest ih =>
    intro h
    have h0 := h 0
    rw [List.drop_zero] at h0
    rw [subTrunc, h0]
    rw [ih (fun i => by have hs := h (i + 1); rwa [List.drop_succ_cons] at hs)]

theorem noMatch_transfer {m : List Char → Option (List Char)}
    (hmono : ∀ t t', pref t' t → '\n' ∉ t → (m t').isSome = true → (m t).isSome = true)
    {l t : List Char} (k : Nat) (hn : '\n' ∉ l)
    (h : ∀ i, m (l.drop i) = none) (hp : pref t (l.drop k)) :
    ∀ i, m (t.drop i) = none := by
  intro i
  have hp2 : pref (t.drop i) ((l.drop k).drop i) := pref_drop_mono i hp
  rw [List.drop_drop] at hp2
  cases hmt : m (t.drop i) with
  | none => rfl
  | some u =>
    exfalso
    have hnd : '\n' ∉ l.drop (k + i) := nf_sub (List.drop_sublist _ _) hn
    have hiss := hmono (l.drop (k + i)) (t.drop i) hp2 hnd (by rw [hmt]; rfl)
    rw [h (k + i)] at hiss
    cases hiss

theorem noOccB_iff {m : List Char → Option (List Char)} (hnil : m [] = none)
    {l : List Char} : noOccB m l = true ↔ ∀ i, m (l.drop i) = none := by
  constructor
  · intro h i
    by_cases hi : i ≤ l.length
    · have hmem : i ∈ List.range (l.length + 1) := List.mem_range.mpr (by omega)
      have hall := (List.all_eq_true.mp h) i hmem
      cases hmo : m (l.drop i)
      · rfl
      · rw [hmo] at hall; cases hall
    · rw [List.drop_eq_nil_of_le (by omega)]
      exact hnil
  · intro h
    rw [noOccB, List.all_eq_true]
    intro i _
    rw [h i]
    rfl

theorem mfd_nil : matchWsFeatDot [] = none := rfl

theorem mfd_nf : ∀ (l u : List Char), '\n' ∉ l → matchWsFeatDot l = some u → u = [] := by
  intro l u hn hm
  simp only [matchWsFeatDot] at hm
  split at hm
  · have hsub : List.Sublist ((l.dropWhile pyIsSpace).drop 5) l :=
      (List.drop_sublist _ _).trans (List.dropWhile_sublist _)
    rw [tam_nf (nf_sub hsub hn)] at hm
    exact (Option.some.inj hm).symm
  · cases hm

theorem mfd_mono : ∀ (t t' : List Char), pref t' t → '\n' ∉ t →
    (matchWsFeatDot t').isSome = true → (matchWsFeatDot t).isSome = true := by
  intro t t' hp hn hs
  obtain ⟨ext, rfl⟩ := hp
  simp only [matchWsFeatDot] at hs
  split at hs
  case isTrue hcond =>
    obtain ⟨hws, hci⟩ := hcond
    have hdne : t'.dropWhile pyIsSpace ≠ [] := by
      intro he
      rw [he] at hci
      have hfalse : ciStartsWith (strL "feat.") ([] : List Char) = false := by decide
      rw [hfalse] at hci
      cases hci
    have happ := tw_dw_append (p := pyIsSpace) ext hdne
    simp only [matchWsFeatDot, happ.1, happ.2]
    rw [if_pos ⟨hws, ciSW_ext ext hci⟩]
    have hsub : List.Sublist ((t'.dropWhile pyIsSpace ++ ext).drop 5) (t' ++ ext) := by
      rw [← happ.2]
      exact (List.drop_sublist _ _).trans (List.dropWhile_sublist _)
    rw [tam_nf (nf_sub hsub hn)]
    rfl
  case isFalse => cases hs

theorem mwa_nil : matchWsAmp [] = none := rfl

theorem mwa_nf : ∀ (l u : List Char), '\n' ∉ l → matchWsAmp l = some u → u = [] := by
  intro l u hn hm
  simp only [matchWsAmp] at hm
  split at hm
  · have hsub : List.Sublist (l.dropWhile pyIsSpace).tail l :=
      (List.tail_sublist _).trans (List.dropWhile_sublist _)
    rw [tam_nf (nf_sub hsub hn)] at hm
    exact (Option.some.inj hm).symm
  · cases hm

theorem mwa_mono : ∀ (t t' : List Char), pref t' t → '\n' ∉ t →
    (matchWsAmp t').isSome = true → (matchWsAmp t).isSome = true := by
  intro t t' hp hn hs
  obtain ⟨ext, rfl⟩ := hp
  simp only [matchWsAmp] at hs
  split at hs
  case isTrue hcond =>
    obtain ⟨hws, hH⟩ := hcond
    obtain ⟨d, dtail, hd⟩ : ∃ d dt, t'.dropWhile pyIsSpace = d :: dt := by
      cases hdw : t'.dropWhile pyIsSpace with
      | nil => rw [hdw] at hH; cases hH
      | cons d dt => exact ⟨d, dt, rfl⟩
    rw [hd] at hH
    have hdne : t'.dropWhile pyIsSpace ≠ [] := by rw [hd]; exact List.cons_ne_nil d dtail
    have happ := tw_dw_append (p := pyIsSpace) ext hdne
    simp only [matchWsAmp, happ.1, happ.2, hd, List.cons_append]
    rw [if_pos ⟨hws, hH⟩]
    have hsub : List.Sublist (dtail ++ ext) (t' ++ ext) := by
      have h1 : List.Sublist (dtail ++ ext) (t'.dropWhile pyIsSpace ++ ext) := by
        rw [hd, List.cons_append]
        exact List.sublist_cons_self d (dtail ++ ext)
      refine h1.trans ?_
      rw [← happ.2]
      exact List.dropWhile_sublist _
    rw [List.tail_cons, tam_nf (nf_sub hsub hn)]
    rfl
  case isFalse => cases hs

theorem tryKs_nf : ∀ (k : Nat) (ws2 rest3 u : List Char),
    '\n' ∉ ws2 → '\n' ∉ rest3 → tryKs k ws2 rest3 = some u → u = []
  | 0, _, _, u => fun _ _ h => by cases h
  | k + 1, ws2, rest3, u => fun h2 h3 h => by
    rw [tryKs] at h
    have harg : '\n' ∉ ws2.drop (k + 1) ++ rest3 := by
      intro hx
      rcases List.mem_append.mp hx with hx | hx
      · exact h2 ((List.drop_sublist _ _).subset hx)
      · exact h3 hx
    rw [tam_nf harg] at h
    exact (Option.some.inj h).symm

theorem tryKs_nf_some (k : Nat) (ws2 rest3 : List Char)
    (h2 : '\n' ∉ ws2) (h3 : '\n' ∉ rest3) : (tryKs (k + 1) ws2 rest3).isSome = true := by
  rw [tryKs]
  have harg : '\n' ∉ ws2.drop (k + 1) ++ rest3 := by
    intro hx
    rcases List.mem_append.mp hx with hx | hx
    · exact h2 ((List.drop_sublist _ _).subset hx)
    · exact h3 hx
  rw [tam_nf harg]
  rfl

theorem mwx_nil : matchWsXWs [] = none := rfl

theorem mwx_nf : ∀ (l u : List Char), '\n' ∉ l → matchWsXWs l = some u → u = [] := by
  intro l u hn hm
  simp only [matchWsXWs] at hm
  split at hm
  · have hbase : List.Sublist (l.dropWhile pyIsSpace).tail l :=
      (List.tail_sublist _).trans (List.dropWhile_sublist _)
    have h2 : '\n' ∉ (l.dropWhile pyIsSpace).tail.takeWhile pyIsSpace :=
      nf_sub ((List.takeWhile_sublist _).trans hbase) hn
    have h3 : '\n' ∉ (l.dropWhile pyIsSpace).tail.dropWhile pyIsSpace :=
      nf_sub ((List.dropWhile_sublist _).trans hbase) hn
    exact tryKs_nf _ _ _ _ h2 h3 hm
  · cases hm

theorem mwx_mono : ∀ (t t' : List Char), pref t' t → '\n' ∉ t →
    (matchWsXWs t').isSome = true → (matchWsXWs t).isSome = true := by
  intro t t' hp hn hs
  obtain ⟨ext, rfl⟩ := hp
  simp only [matchWsXWs] at hs
  split at hs
  case isTrue hcond =>
    obtain ⟨hws, hx, hne⟩ := hcond
    obtain ⟨d, dtail, hd⟩ : ∃ d dt, t'.dropWhile pyIsSpace = d :: dt := by
      cases hdw : t'.dropWhile pyIsSpace with
      | nil => exact absurd hdw hne
      | cons d dt => exact ⟨d, dt, rfl⟩
    have happ := tw_dw_append (p := pyIsSpace) ext hne
    have hbase : (t' ++ ext).dropWhile pyIsSpace = d :: (dtail ++ ext) := by
      rw [happ.2, hd, List.cons_append]
    have hws2 : dtail.takeWhile pyIsSpace ≠ [] := by
      intro he
      rw [hd] at hs
      rw [show ((d : Char) :: dtail).tail = dtail from rfl, he] at hs
      rw [show ([] : List Char).length = 0 from rfl, tryKs] at hs
      cases hs
    obtain ⟨w, wtail, hw⟩ : ∃ w wt, dtail = w :: wt := by
      cases hdt : dtail with
      | nil => rw [hdt] at hws2; exact absurd rfl hws2
      | cons w wt => exact ⟨w, wt, rfl⟩
    have hwsp : pyIsSpace w = true := by
      rw [hw] at hws2
      cases hwp : pyIsSpace w with
      | true => rfl
      | false =>
        rw [List.takeWhile_cons_of_neg (by rw [hwp]; exact Bool.false_ne_true)] at hws2
        exact absurd rfl hws2
    have hx' : d.toLower = 'x' := by rw [hd] at hx; exact hx
    have hdt_sub : List.Sublist dtail t' := by
      have h1 : List.Sublist dtail (d :: dtail) := List.sublist_cons_self d dtail
      rw [← hd] at h1
      exact h1.trans (List.dropWhile_sublist _)
    have hu_sub : List.Sublist (wtail ++ ext) (t' ++ ext) := by
      have h1 : List.Sublist wtail t' := by
        have h2 : List.Sublist wtail dtail := by
          rw [hw]; exact List.sublist_cons_self w wtail
        exact h2.trans hdt_sub
      exact h1.append (List.Sublist.refl ext)
    have hw_mem : w ∈ t' ++ ext := by
      have : w ∈ dtail := by rw [hw]; exact List.mem_cons_self w wtail
      exact List.mem_append.mpr (Or.inl (hdt_sub.subset this))
    simp only [matchWsXWs, happ.1, hbase]
    rw [if_pos ⟨hws, hx', List.cons_ne_nil d (dtail ++ ext)⟩]
    rw [show ((d : Char) :: (dtail ++ ext)).tail = dtail ++ ext from rfl, hw, List.cons_append,
      List.takeWhile_cons_of_pos hwsp, List.dropWhile_cons_of_pos hwsp, List.length_cons]
    refine tryKs_nf_some _ _ _ ?_ ?_
    · intro hmem
      rcases List.mem_cons.mp hmem with he | hmem2
      · rw [← he] at hw_mem; exact hn hw_mem
      · exact hn (((List.takeWhile_sublist _).trans hu_sub).subset hmem2)
    · intro hmem
      exact hn (((List.dropWhile_sublist _).trans hu_sub).subset hmem)
  case isFalse => cases hs

theorem mf_nil : matchFeat [] = none := rfl

theorem mf_nf : ∀ (l u : List Char), '\n' ∉ l → matchFeat l = some u → u = [] := by
  intro l u hn hm
  rw [matchFeat] at hm
  split at hm
  · rw [tam_nf (nf_sub (List.drop_sublist _ _) hn)] at hm
    exact (Option.some.inj hm).symm
  · cases hm

theorem mf_iff {t : List Char} (hn : '\n' ∉ t) :
    (matchFeat t).isSome = true ↔ ciStartsWith (strL "feat") t = true := by
  rw [matchFeat]
  constructor
  · intro hs
    split at hs
    case isTrue h => exact h
    case isFalse => cases hs
  · intro hci
    rw [if_pos hci, tam_nf (nf_sub (List.drop_sublist _ _) hn)]
    rfl

theorem mf_mono : ∀ (t t' : List Char), pref t' t → '\n' ∉ t →
    (matchFeat t').isSome = true → (matchFeat t).isSome = true := by
  intro t t' hp hn hs
  rw [mf_iff hn]
  rw [matchFeat] at hs
  split at hs
  case isTrue h => exact ciSW_pre hp h
  case isFalse => cases hs

theorem mft_nil : matchFt [] = none := rfl

theorem mft_nf : ∀ (l u : List Char), '\n' ∉ l → matchFt l = some u → u = [] := by
  intro l u hn hm
  rw [matchFt] at hm
  split at hm
  · split at hm
    · have h1 : '\n' ∉ (l.drop 2).tail :=
        nf_sub ((List.tail_sublist _).trans (List.drop_sublist _ _)) hn
      rw [tam_nf h1] at hm
      exact (Option.some.inj hm).symm
    · rw [tam_nf (nf_sub (List.drop_sublist _ _) hn)] at hm
      exact (Option.some.inj hm).symm
  · cases hm

theorem mft_iff {t : List Char} (hn : '\n' ∉ t) :
    (matchFt t).isSome = true ↔ ciStartsWith (strL "ft") t = true := by
  rw [matchFt]
  constructor
  · intro hs
    split at hs
    case isTrue h => exact h
    case isFalse => cases hs
  · intro hci
    rw [if_pos hci]
    split
    · rw [tam_nf (nf_sub ((List.tail_sublist _).trans (List.drop_sublist _ _)) hn)]
      rfl
    · rw [tam_nf (nf_sub (List.drop_sublist _ _) hn)]
      rfl

theorem mft_mono : ∀ (t t' : List Char), pref t' t → '\n' ∉ t →
    (matchFt t').isSome = true → (matchFt t).isSome = true := by
  intro t t' hp hn hs
  rw [mft_iff hn]
  rw [matchFt] at hs
  split at hs
  case isTrue h => exact ciSW_pre hp h
  case isFalse => cases hs

theorem ma_nil : matchAmp [] = none := rfl

theorem ma_nf : ∀ (l u : List Char), '\n' ∉ l → matchAmp l = some u → u = [] := by
  intro l u hn hm
  rw [matchAmp] at hm
  split at hm
  · rw [tam_nf (nf_sub (List.tail_sublist _) hn)] at hm
    exact (Option.some.inj hm).symm
  · cases hm

theorem ma_iff {t : List Char} (hn : '\n' ∉ t) :
    (matchAmp t).isSome = true ↔ t.head? = some '&' := by
  rw [matchAmp]
  constructor
  · intro hs
    split at hs
    case isTrue h => exact h
    case isFalse => cases hs
  · intro h
    rw [if_pos h, tam_nf (nf_sub (List.tail_sublist _) hn)]
    rfl

theorem ma_mono : ∀ (t t' : List Char), pref t' t → '\n' ∉ t →
    (matchAmp t').isSome = true → (matchAmp t).isSome = true := by
  intro t t' hp hn hs
  rw [matchAmp] at hs
  split at hs
  case isTrue h =>
    have hne : t' ≠ [] := by intro he; rw [he] at h; cases h
    rw [ma_iff hn, ← head_of_pref hp hne]
    exact h
  case isFalse => cases hs

theorem mc_nil : matchComma [] = none := rfl

theorem mc_nf : ∀ (l u : List Char), '\n' ∉ l → matchComma l = some u → u = [] := by
  intro l u hn hm
  rw [matchComma] at hm
  split at hm
  · rw [tam_nf (nf_sub (List.tail_sublist _) hn)] at hm
    exact (Option.some.inj hm).symm
  · cases hm

theorem mc_iff {t : List Char} (hn : '\n' ∉ t) :
    (matchComma t).isSome = true ↔ t.head? = some ',' := by
  rw [matchComma]
  constructor
  · intro hs
    split at hs
    case isTrue h => exact h
    case isFalse => cases hs
  · intro h
    rw [if_pos h, tam_nf (nf_sub (List.tail_sublist _) hn)]
    rfl

theorem mc_mono : ∀ (t t' : List Char), pref t' t → '\n' ∉ t →
    (matchComma t').isSome = true → (matchComma t).isSome = true := by
  intro t t' hp hn hs
  rw [matchComma] at hs
  split at hs
  case isTrue h =>
    have hne : t' ≠ [] := by intro he; rw [he] at h; cases h
    rw [mc_iff hn, ← head_of_pref hp hne]
    exact h
  case isFalse => cases hs

theorem mem_iff_head_drop {ch : Char} {l : List Char} :
    ch ∈ l ↔ ∃ i, (l.drop i).head? = some ch := by
  induction l with
  | nil =>
    constructor
    · intro h; cases h
    · rintro ⟨i, hi⟩; rw [List.drop_nil] at hi; cases hi
  | cons c r ih =>
    constructor
    · intro h
      rcases List.mem_cons.mp h with he | hm
      · exact ⟨0, by rw [List.drop_zero, List.head?_cons, he]⟩
      · obtain ⟨i, hi⟩ := ih.mp hm
        exact ⟨i + 1, by rwa [List.drop_succ_cons]⟩
    · rintro ⟨i, hi⟩
      cases i with
      | zero =>
        rw [List.drop_zero, List.head?_cons] at hi
        rw [Option.some.inj hi]
        exact List.mem_cons_self ch r
      | succ j =>
        rw [List.drop_succ_cons] at hi
        exact List.mem_cons_of_mem c (ih.mpr ⟨j, hi⟩)

theorem ciOcc_iff_drop {tok l : List Char} :
    ciOcc tok l = true ↔ ∃ i, ciStartsWith tok (l.drop i) = true := by
  induction l with
  | nil =>
    rw [ciOcc]
    constructor
    · intro h; exact ⟨0, h⟩
    · rintro ⟨i, hi⟩; rwa [List.drop_nil] at hi
  | cons c r ih =>
    rw [ciOcc, Bool.or_eq_true]
    constructor
    · rintro (h | h)
      · exact ⟨0, h⟩
      · obtain ⟨i, hi⟩ := ih.mp h
        exact ⟨i + 1, by rwa [List.drop_succ_cons]⟩
    · rintro ⟨i, hi⟩
      cases i with
      | zero => rw [List.drop_zero] at hi; exact Or.inl hi
      | succ j => rw [List.drop_succ_cons] at hi; exact Or.inr (ih.mpr ⟨j, hi⟩)

theorem noOcc_iff_ciOcc {m : List Char → Option (List Char)} {tok l : List Char}
    (hn : '\n' ∉ l)
    (hiff : ∀ t, '\n' ∉ t → ((m t).isSome = true ↔ ciStartsWith tok t = true)) :
    (∀ i, m (l.drop i) = none) ↔ ciOcc tok l = false := by
  constructor
  · intro h
    cases hc : ciOcc tok l with
    | false => rfl
    | true =>
      exfalso
      obtain ⟨i, hi⟩ := ciOcc_iff_drop.mp hc
      have hnd : '\n' ∉ l.drop i := nf_sub (List.drop_sublist _ _) hn
      have hsome := (hiff _ hnd).mpr hi
      rw [h i] at hsome
      cases hsome
  · intro h i
    cases hm : m (l.drop i) with
    | none => rfl
    | some u =>
      exfalso
      have hnd : '\n' ∉ l.drop i := nf_sub (List.drop_sublist _ _) hn
      have hci := (hiff _ hnd).mp (by rw [hm]; rfl)
      have hco : ciOcc tok l = true := ciOcc_iff_drop.mpr ⟨i, hci⟩
      rw [h] at hco
      cases hco

theorem noOcc_iff_mem {m : List Char → Option (List Char)} {ch : Char} {l : List Char}
    (hn : '\n' ∉ l)
    (hiff : ∀ t, '\n' ∉ t → ((m t).isSome = true ↔ t.head? = some ch)) :
    (∀ i, m (l.drop i) = none) ↔ ch ∉ l := by
  constructor
  · intro h hmem
    obtain ⟨i, hi⟩ := mem_iff_head_drop.mp hmem
    have hnd : '\n' ∉ l.drop i := nf_sub (List.drop_sublist _ _) hn
    have hsome := (hiff _ hnd).mpr hi
    rw [h i] at hsome
    cases hsome
  · intro h i
    cases hm : m (l.drop i) with
    | none => rfl
    | some u =>
      exfalso
      have hnd : '\n' ∉ l.drop i := nf_sub (List.drop_sublist _ _) hn
      have hh := (hiff _ hnd).mp (by rw [hm]; rfl)
      exact h (mem_iff_head_drop.mpr ⟨i, hh⟩)

theorem hasPair_sub {o c : Char} {t l : List Char} (h : List.Sublist t l)
    (hp : hasPairB o c t = true) : hasPairB o c l = true := by
  induction h with
  | slnil => cases hp
  | cons a h ih =>
    rw [hasPairB, Bool.or_eq_true]
    exact Or.inr (ih hp)
  | cons₂ a h ih =>
    rw [hasPairB, Bool.or_eq_true] at hp ⊢
    rcases hp with hp | hp
    · rw [Bool.and_eq_true] at hp
      refine Or.inl ?_
      rw [Bool.and_eq_true]
      refine ⟨hp.1, ?_⟩
      have := List.elem_iff.mp hp.2
      exact List.elem_iff.mpr (h.subset this)
    · exact Or.inr (ih hp)

theorem collapseWsF_mem : ∀ (fuel : Nat) (l : List Char) {x : Char},
    x ∈ collapseWsF fuel l → x ∈ l ∨ x = ' '
  | 0, _, _ => fun h => Or.inl h
  | _ + 1, [], _ => fun h => by cases h
  | fuel + 1, c :: rest, x => fun h => by
    rw [collapseWsF] at h
    split at h
    · rcases List.mem_cons.mp h with he | hm
      · exact Or.inr he
      · rcases collapseWsF_mem fuel _ hm with hm2 | he
        · exact Or.inl (List.mem_cons_of_mem c ((List.dropWhile_sublist _).subset hm2))
        · exact Or.inr he
    · rcases List.mem_cons.mp h with he | hm
      · exact Or.inl (by rw [he]; exact List.mem_cons_self c rest)
      · rcases collapseWsF_mem fuel rest hm with hm2 | he
        · exact Or.inl (List.mem_cons_of_mem c hm2)
        · exact Or.inr he

theorem collapse_nf {l : List Char} (hn : '\n' ∉ l) : '\n' ∉ collapseWs l := by
  intro hm
  rcases collapseWsF_mem l.length l hm with hm2 | he
  · exact hn hm2
  · cases he

theorem ciSW_collapse {tok : List Char} (htok : ∀ p ∈ tok, p.toLower ≠ ' ') :
    ∀ (fuel : Nat) (r : List Char), ciStartsWith tok (collapseWsF fuel r) = true →
      ciStartsWith tok r = true := by
  induction tok with
  | nil => intro fuel r _; rfl
  | cons p ps ih =>
    intro fuel r h
    cases fuel with
    | zero => exact h
    | succ f =>
      cases r with
      | nil => exact h
      | cons c r' =>
        rw [collapseWsF] at h
        split at h
        case isTrue hws =>
          exfalso
          obtain ⟨cc, cs, he, hci, -⟩ := ciSW_cases h
          injection he with h1 h2
          rw [← h1] at hci
          have hsp : (' ' : Char).toLower = ' ' := by decide
          exact htok p (List.mem_cons_self p ps) (hci.symm.trans hsp)
        case isFalse hws =>
          obtain ⟨cc, cs, he, hci, hrest⟩ := ciSW_cases h
          injection he with h1 h2
          rw [ciStartsWith, Bool.and_eq_true, beq_iff_eq]
          refine ⟨by rw [h1]; exact hci, ?_⟩
          apply ih (fun q hq => htok q (List.mem_cons_of_mem p hq)) f r'
          rw [h2]
          exact hrest

theorem ciOcc_cons {tok : List Char} (c : Char) {r : List Char}
    (h : ciOcc tok r = true) : ciOcc tok (c :: r) = true := by
  rw [ciOcc, Bool.or_eq_true]
  exact Or.inr h

theorem ciOcc_dropWhile {tok : List Char} {p : Char → Bool} : ∀ {l : List Char},
    ciOcc tok (l.dropWhile p) = true → ciOcc tok l = true := by
  intro l
  induction l with
  | nil => intro h; exact h
  | cons c r ih =>
    intro h
    cases hpc : p c with
    | true => rw [List.dropWhile_cons_of_pos hpc] at h; exact ciOcc_cons c (ih h)
    | false => rwa [List.dropWhile_cons_of_neg (by rw [hpc]; exact Bool.false_ne_true)] at h

theorem ciOcc_collapseF {tok : List Char} (htok : ∀ p ∈ tok, p.toLower ≠ ' ')
    (hne : tok ≠ []) : ∀ (fuel : Nat) (l : List Char),
      ciOcc tok (collapseWsF fuel l) = true → ciOcc tok l = true := by
  intro fuel
  induction fuel with
  | zero => intro l h; exact h
  | succ f ihf =>
    intro l h
    cases l with
    | nil => exact h
    | cons c r =>
      rw [collapseWsF] at h
      split at h
      case isTrue hws =>
        rw [ciOcc, Bool.or_eq_true] at h
        rcases h with h | h
        · exfalso
          obtain ⟨p, ps, hps⟩ : ∃ p ps, tok = p :: ps := by
            cases tok with
            | nil => exact absurd rfl hne
            | cons p ps => exact ⟨p, ps, rfl⟩
          rw [hps] at h htok
          obtain ⟨cc, cs, he, hci, -⟩ := ciSW_cases h
          injection he with h1 h2
          rw [← h1] at hci
          have hsp : (' ' : Char).toLower = ' ' := by decide
          exact htok p (List.mem_cons_self p ps) (hci.symm.trans hsp)
        · exact ciOcc_cons c (ciOcc_dropWhile (ihf _ h))
      case isFalse hws =>
        rw [ciOcc, Bool.or_eq_true] at h
        rcases h with h | h
        · obtain ⟨p, ps, hps⟩ : ∃ p ps, tok = p :: ps := by
            cases tok with
            | nil => exact absurd rfl hne
            | cons p ps => exact ⟨p, ps, rfl⟩
          rw [hps] at h htok ⊢
          obtain ⟨cc, cs, he, hci, hrest⟩ := ciSW_cases h
          injection he with h1 h2
          rw [ciOcc, Bool.or_eq_true]
          refine Or.inl ?_
          rw [ciStartsWith, Bool.and_eq_true, beq_iff_eq]
          refine ⟨by rw [h1]; exact hci, ?_⟩
          apply ciSW_collapse (fun q hq => htok q (List.mem_cons_of_mem p hq)) f r
          rw [h2]
          exact hrest
        · exact ciOcc_cons c (ihf r h)

theorem hasPair_collapseF {o c : Char} (ho : o ≠ ' ') (hc : c ≠ ' ') :
    ∀ (fuel : Nat) (l : List Char),
      hasPairB o c (collapseWsF fuel l) = true → hasPairB o c l = true
  | 0, _ => fun h => h
  | _ + 1, [] => fun h => by cases h
  | fuel + 1, x :: rest => fun h => by
    rw [collapseWsF] at h
    split at h
    case isTrue hws =>
      rw [hasPairB, Bool.or_eq_true] at h
      rcases h with h | h
      · rw [Bool.and_eq_true, beq_iff_eq] at h
        exact absurd h.1.symm ho
      · have h2 := hasPair_collapseF ho hc fuel _ h
        exact hasPair_sub ((List.dropWhile_sublist _).trans (List.sublist_cons_self x rest)) h2
    case isFalse hws =>
      rw [hasPairB, Bool.or_eq_true] at h
      rcases h with h | h
      · rw [Bool.and_eq_true, beq_iff_eq] at h
        obtain ⟨hxo, hcontains⟩ := h
        have hcm : c ∈ collapseWsF fuel rest := List.elem_iff.mp hcontains
        rcases collapseWsF_mem fuel rest hcm with hm | he
        · rw [hasPairB, Bool.or_eq_true]
          refine Or.inl ?_
          rw [Bool.and_eq_true, beq_iff_eq]
          exact ⟨hxo, List.elem_iff.mpr hm⟩
        · exact absurd he hc
      · exact hasPair_sub (List.sublist_cons_self x rest) (hasPair_collapseF ho hc fuel rest h)

theorem goodWs_tail {ch : Char} {r : List Char} (h : goodWs (ch :: r) = true) :
    goodWs r = true := by
  rw [goodWs, Bool.and_eq_true] at h
  exact h.2

theorem goodWs_cond {ch : Char} {r : List Char} (h : goodWs (ch :: r) = true) :
    pyIsSpace ch = false ∨ (ch = ' ' ∧ pyIsSpace (r.headD 'A') = false) := by
  rw [goodWs, Bool.and_eq_true] at h
  have h1 := h.1
  rw [Bool.or_eq_true, Bool.not_eq_true'] at h1
  rcases h1 with h1 | h1
  · exact Or.inl h1
  · rw [Bool.and_eq_true, beq_iff_eq, Bool.not_eq_true'] at h1
    exact Or.inr h1

theorem goodWs_cons {ch : Char} {r : List Char}
    (hcond : pyIsSpace ch = false ∨ (ch = ' ' ∧ pyIsSpace (r.headD 'A') = false))
    (hr : goodWs r = true) : goodWs (ch :: r) = true := by
  rw [goodWs, Bool.and_eq_true]
  refine ⟨?_, hr⟩
  rw [Bool.or_eq_true, Bool.not_eq_true']
  rcases hcond with h | ⟨h1, h2⟩
  · exact Or.inl h
  · right
    rw [Bool.and_eq_true, beq_iff_eq, Bool.not_eq_true']
    exact ⟨h1, h2⟩

theorem collapseF_head : ∀ (fuel : Nat) {r : List Char},
    (∀ h, r.head? = some h → pyIsSpace h = false) →
    ∀ h', (collapseWsF fuel r).head? = some h' → pyIsSpace h' = false
  | 0, _ => fun hh h' hm => hh h' hm
  | _ + 1, [] => fun _ h' hm => by cases hm
  | fuel + 1, c :: rest => fun hh h' hm => by
    rw [collapseWsF] at hm
    split at hm
    case isTrue hws => exact absurd (hh c rfl) (by rw [hws]; exact fun he => Bool.noConfusion he)
    case isFalse hws =>
      rw [List.head?_cons] at hm
      rw [← Option.some.inj hm]
      cases hpc : pyIsSpace c with
      | false => rfl
      | true => exact absurd hpc hws

theorem goodWs_collapseF : ∀ (fuel : Nat) (l : List Char), l.length ≤ fuel →
    goodWs (collapseWsF fuel l) = true
  | 0, l => fun h => by
    have hl : l = [] := List.eq_nil_of_length_eq_zero (Nat.le_zero.mp h)
    subst hl; rfl
  | _ + 1, [] => fun _ => rfl
  | fuel + 1, c :: rest => fun hlen => by
    have hrl : rest.length ≤ fuel := by
      have : (c :: rest).length = rest.length + 1 := rfl
      omega
    rw [collapseWsF]
    split
    case isTrue hws =>
      refine goodWs_cons ?_ (goodWs_collapseF fuel _
        (le_trans (List.dropWhile_sublist _).length_le hrl))
      right
      refine ⟨rfl, ?_⟩
      cases hC : collapseWsF fuel (rest.dropWhile pyIsSpace) with
      | nil => rfl
      | cons y ys =>
        have hy : pyIsSpace y = false :=
          collapseF_head fuel (fun h hh => dropWhile_head_prop hh) y (by rw [hC]; rfl)
        exact hy
    case isFalse hws =>
      refine goodWs_cons (Or.inl ?_) (goodWs_collapseF fuel rest hrl)
      cases hp : pyIsSpace c with
      | false => rfl
      | true => exact absurd hp hws

theorem goodWs_take : ∀ {l : List Char} (n : Nat), goodWs l = true →
    goodWs (l.take n) = true := by
  intro l
  induction l with
  | nil => intro n _; rw [List.take_nil]; rfl
  | cons c r ih =>
    intro n h
    cases n with
    | zero => rfl
    | succ m =>
      rw [List.take_succ_cons]
      refine goodWs_cons ?_ (ih m (goodWs_tail h))
      rcases goodWs_cond h with h1 | ⟨h1, h2⟩
      · exact Or.inl h1
      · right
        refine ⟨h1, ?_⟩
        cases r with
        | nil => rw [List.take_nil]; exact h2
        | cons d ds =>
          cases m with
          | zero => rw [List.take_zero]; rfl
          | succ k => rw [List.take_succ_cons]; exact h2

theorem goodWs_fix : ∀ (fuel : Nat) (l : List Char), goodWs l = true →
    collapseWsF fuel l = l
  | 0, _ => fun _ => rfl
  | _ + 1, [] => fun _ => rfl
  | fuel + 1, c :: rest => fun h => by
    rw [collapseWsF]
    split
    case isTrue hws =>
      rcases goodWs_cond h with h1 | ⟨h1, h2⟩
      · rw [h1] at hws; cases hws
      · have hdw : rest.dropWhile pyIsSpace = rest := by
          cases rest with
          | nil => rfl
          | cons d ds =>
            have hd : pyIsSpace d = false := h2
            exact List.dropWhile_cons_of_neg (by rw [hd]; exact Bool.false_ne_true)
        rw [hdw, goodWs_fix fuel rest (goodWs_tail h), h1]
    case isFalse =>
      rw [goodWs_fix fuel rest (goodWs_tail h)]

theorem goodWs_dropWhile {p : Char → Bool} : ∀ {l : List Char}, goodWs l = true →
    goodWs (l.dropWhile p) = true := by
  intro l
  induction l with
  | nil => intro h; exact h
  | cons c r ih =>
    intro h
    cases hpc : p c with
    | true => rw [List.dropWhile_cons_of_pos hpc]; exact ih (goodWs_tail h)
    | false => rwa [List.dropWhile_cons_of_neg (by rw [hpc]; exact Bool.false_ne_true)]

theorem goodWs_rightStrip {l : List Char} (h : goodWs l = true) :
    goodWs (rightStrip l) = true := by
  rw [pref_take (rightStrip_pref l)]
  exact goodWs_take _ h

theorem goodWs_strip {l : List Char} (h : goodWs l = true) :
    goodWs (stripWs l) = true :=
  goodWs_rightStrip (goodWs_dropWhile h)

theorem collapse_fix {l : List Char} (h : goodWs l = true) : collapseWs l = l :=
  goodWs_fix l.length l h

theorem goodWs_collapse (l : List Char) : goodWs (collapseWs l) = true :=
  goodWs_collapseF l.length l (le_refl _)

theorem hasPair_sub_false {o c : Char} {t l : List Char} (h : List.Sublist t l)
    (hl : hasPairB o c l = false) : hasPairB o c t = false := by
  cases hc : hasPairB o c t
  · rfl
  · rw [hasPair_sub h hc] at hl; cases hl

theorem hasPair_collapse_false {o c : Char} (ho : o ≠ ' ') (hc : c ≠ ' ')
    {l : List Char} (h : hasPairB o c l = false) : hasPairB o c (collapseWs l) = false := by
  cases hx : hasPairB o c (collapseWs l)
  · rfl
  · rw [hasPair_collapseF ho hc l.length l hx] at h; cases h

theorem ciOcc_of_pre {tok t l : List Char} (hp : pref t l) (h : ciOcc tok t = true) :
    ciOcc tok l = true := by
  obtain ⟨ext, rfl⟩ := hp
  induction t with
  | nil =>
    rw [ciOcc] at h
    have htok : tok = [] := by
      cases tok with
      | nil => rfl
      | cons p ps => cases h
    subst htok
    rw [List.nil_append]
    cases ext with
    | nil => rfl
    | cons e es => rw [ciOcc, Bool.or_eq_true]; exact Or.inl rfl
  | cons c r ih =>
    rw [List.cons_append]
    rw [ciOcc, Bool.or_eq_true] at h ⊢
    rcases h with h | h
    · exact Or.inl (ciSW_ext ext h)
    · exact Or.inr (ih h)

theorem ciOcc_of_drop {tok l : List Char} (k : Nat) (h : ciOcc tok (l.drop k) = true) :
    ciOcc tok l = true := by
  induction k generalizing l with
  | zero => rwa [List.drop_zero] at h
  | succ j ih =>
    cases l with
    | nil => rwa [List.drop_nil] at h
    | cons c r => rw [List.drop_succ_cons] at h; exact ciOcc_cons c (ih h)

theorem ciOcc_pre_false {tok t l : List Char} (hp : pref t l) (h : ciOcc tok l = false) :
    ciOcc tok t = false := by
  cases hx : ciOcc tok t
  · rfl
  · rw [ciOcc_of_pre hp hx] at h; cases h

theorem ciOcc_strip_false {tok l : List Char} (h : ciOcc tok l = false) :
    ciOcc tok (stripWs l) = false := by
  cases hx : ciOcc tok (stripWs l)
  · rfl
  · exfalso
    obtain ⟨k, hk⟩ := leftStrip_eq_drop l
    have h1 : ciOcc tok (leftStrip l) = true :=
      ciOcc_of_pre (rightStrip_pref (leftStrip l)) hx
    rw [hk] at h1
    rw [ciOcc_of_drop k h1] at h
    cases h

theorem ciOcc_collapse_false {tok l : List Char} (htok : ∀ p ∈ tok, p.toLower ≠ ' ')
    (hne : tok ≠ []) (h : ciOcc tok l = false) : ciOcc tok (collapseWs l) = false := by
  cases hx : ciOcc tok (collapseWs l)
  · rfl
  · rw [ciOcc_collapseF htok hne l.length l hx] at h; cases h

theorem not_mem_sub {x : Char} {t l : List Char} (h : List.Sublist t l) (hx : x ∉ l) :
    x ∉ t :=
  fun hm => hx (h.subset hm)

theorem not_mem_collapse {x : Char} (hx : x ≠ ' ') {l : List Char} (h : x ∉ l) :
    x ∉ collapseWs l := by
  intro hm
  rcases collapseWsF_mem l.length l hm with hm2 | he
  · exact h hm2
  · exact hx he

theorem cross_clean_fix {t : List Char}
    (h1 : hasPairB '(' ')' t = false) (h2 : hasPairB '[' ']' t = false)
    (h3 : ∀ i, matchWsFeatDot (t.drop i) = none)
    (h4 : ∀ i, matchWsAmp (t.drop i) = none)
    (h5 : ∀ i, matchWsXWs (t.drop i) = none)
    (h6 : stripWs t = t) :
    clean_artist_name_cross (some t) = t := by
  show stripWs (subTrunc matchWsXWs (subTrunc matchWsAmp (subTrunc matchWsFeatDot
    (removeBrackets (removeParens t))))) = t
  rw [show removeParens t = t from removeDelim_fix h1]
  rw [show removeBrackets t = t from removeDelim_fix h2]
  rw [subTrunc_id h3, subTrunc_id h4, subTrunc_id h5, h6]

theorem grammy_clean_fix {t : List Char}
    (h1 : hasPairB '(' ')' t = false) (h2 : hasPairB '[' ']' t = false)
    (h3 : ∀ i, matchFeat (t.drop i) = none)
    (h4 : ∀ i, matchFt (t.drop i) = none)
    (h5 : ∀ i, matchAmp (t.drop i) = none)
    (h6 : ∀ i, matchComma (t.drop i) = none)
    (h7 : collapseWs t = t) (h8 : stripWs t = t) :
    clean_artist_name_grammy (some t) = t := by
  show stripWs (stripWs (collapseWs (subTrunc matchComma (subTrunc matchAmp
    (subTrunc matchFt (subTrunc matchFeat (removeBrackets (removeParens t)))))))) = t
  rw [show removeParens t = t from removeDelim_fix h1]
  rw [show removeBrackets t = t from removeDelim_fix h2]
  rw [subTrunc_id h3, subTrunc_id h4, subTrunc_id h5, subTrunc_id h6, h7, h8, h8]

theorem cross_facts (s : List Char) (hn : '\n' ∉ s) :
    '\n' ∉ clean_artist_name_cross (some s) ∧
    hasPairB '(' ')' (clean_artist_name_cross (some s)) = false ∧
    hasPairB '[' ']' (clean_artist_name_cross (some s)) = false ∧
    (∀ i, matchWsFeatDot ((clean_artist_name_cross (some s)).drop i) = none) ∧
    (∀ i, matchWsAmp ((clean_artist_name_cross (some s)).drop i) = none) ∧
    (∀ i, matchWsXWs ((clean_artist_name_cross (some s)).drop i) = none) ∧
    stripWs (clean_artist_name_cross (some s)) = clean_artist_name_cross (some s) := by
  have hn2 : '\n' ∉ removeBrackets (removeParens s) :=
    nf_sub ((removeDelim_sub _ _ _).trans (removeDelim_sub _ _ _)) hn
  have hpre3 := subTrunc_pref mfd_nf hn2
  have hn3 : '\n' ∉ subTrunc matchWsFeatDot (removeBrackets (removeParens s)) :=
    nf_sub (pref_sub hpre3) hn2
  have hpre4 := subTrunc_pref mwa_nf hn3
  have hn4 : '\n' ∉ subTrunc matchWsAmp (subTrunc matchWsFeatDot
      (removeBrackets (removeParens s))) :=
    nf_sub (pref_sub hpre4) hn3
  have hpre5 := subTrunc_pref mwx_nf hn4
  have hn5 : '\n' ∉ subTrunc matchWsXWs (subTrunc matchWsAmp (subTrunc matchWsFeatDot
      (removeBrackets (removeParens s)))) :=
    nf_sub (pref_sub hpre5) hn4
  have hclean : clean_artist_name_cross (some s) = stripWs (subTrunc matchWsXWs
      (subTrunc matchWsAmp (subTrunc matchWsFeatDot (removeBrackets (removeParens s))))) := rfl
  have hsubT : List.Sublist (clean_artist_name_cross (some s)) (subTrunc matchWsXWs
      (subTrunc matchWsAmp (subTrunc matchWsFeatDot (removeBrackets (removeParens s))))) := by
    rw [hclean]; exact strip_sub _
  have hnt : '\n' ∉ clean_artist_name_cross (some s) := nf_sub hsubT hn5
  have hsub_all : List.Sublist (clean_artist_name_cross (some s)) (removeParens s) :=
    hsubT.trans ((pref_sub hpre5).trans ((pref_sub hpre4).trans ((pref_sub hpre3).trans
      (removeDelim_sub _ _ _))))
  have hsub_p2 : List.Sublist (clean_artist_name_cross (some s))
      (removeBrackets (removeParens s)) :=
    hsubT.trans ((pref_sub hpre5).trans ((pref_sub hpre4).trans (pref_sub hpre3)))
  obtain ⟨k, hk⟩ := leftStrip_eq_drop (subTrunc matchWsXWs (subTrunc matchWsAmp
    (subTrunc matchWsFeatDot (removeBrackets (removeParens s)))))
  have hprT : pref (clean_artist_name_cross (some s)) ((subTrunc matchWsXWs (subTrunc matchWsAmp
      (subTrunc matchWsFeatDot (removeBrackets (removeParens s))))).drop k) := by
    rw [← hk]
    rw [hclean]
    exact rightStrip_pref _
  refine ⟨hnt, ?_, ?_, ?_, ?_, ?_, ?_⟩
  · exact hasPair_sub_false hsub_all (removeDelim_noPair '(' ')' s)
  · exact hasPair_sub_false hsub_p2 (removeDelim_noPair '[' ']' (removeParens s))
  · have hocc3 := subTrunc_noMatch mfd_nil mfd_nf mfd_mono hn2
    have hocc4 := noMatch_transfer mfd_mono 0 hn3 hocc3
      (by rw [List.drop_zero]; exact hpre4)
    have hocc5 := noMatch_transfer mfd_mono 0 hn4 hocc4
      (by rw [List.drop_zero]; exact hpre5)
    exact noMatch_transfer mfd_mono k hn5 hocc5 hprT
  · have hocc4 := subTrunc_noMatch mwa_nil mwa_nf mwa_mono hn3
    have hocc5 := noMatch_transfer mwa_mono 0 hn4 hocc4
      (by rw [List.drop_zero]; exact hpre5)
    exact noMatch_transfer mwa_mono k hn5 hocc5 hprT
  · have hocc5 := subTrunc_noMatch mwx_nil mwx_nf mwx_mono hn4
    exact noMatch_transfer mwx_mono k hn5 hocc5 hprT
  · rw [hclean]
    exact strip_strip _

theorem grammy_facts (s : List Char) (hn : '\n' ∉ s) :
    '\n' ∉ clean_artist_name_grammy (some s) ∧
    hasPairB '(' ')' (clean_artist_name_grammy (some s)) = false ∧
    hasPairB '[' ']' (clean_artist_name_grammy (some s)) = false ∧
    ciOcc (strL "feat") (clean_artist_name_grammy (some s)) = false ∧
    ciOcc (strL "ft") (clean_artist_name_grammy (some s)) = false ∧
    '&' ∉ clean_artist_name_grammy (some s) ∧
    ',' ∉ clean_artist_name_grammy (some s) ∧
    collapseWs (clean_artist_name_grammy (some s)) = clean_artist_name_grammy (some s) ∧
    stripWs (clean_artist_name_grammy (some s)) = clean_artist_name_grammy (some s) := by
  have hn2 : '\n' ∉ removeBrackets (removeParens s) :=
    nf_sub ((removeDelim_sub _ _ _).trans (removeDelim_sub _ _ _)) hn
  have hpre3 := subTrunc_pref mf_nf hn2
  have hn3 : '\n' ∉ subTrunc matchFeat (removeBrackets (removeParens s)) :=
    nf_sub (pref_sub hpre3) hn2
  have hpre4 := subTrunc_pref mft_nf hn3
  have hn4 : '\n' ∉ subTrunc matchFt (subTrunc matchFeat (removeBrackets (removeParens s))) :=
    nf_sub (pref_sub hpre4) hn3
  have hpre5 := subTrunc_pref ma_nf hn4
  have hn5 : '\n' ∉ subTrunc matchAmp (subTrunc matchFt (subTrunc matchFeat
      (removeBrackets (removeParens s)))) :=
    nf_sub (pref_sub hpre5) hn4
  have hpre6 := subTrunc_pref mc_nf hn5
  have hn6 : '\n' ∉ subTrunc matchComma (subTrunc matchAmp (subTrunc matchFt (subTrunc matchFeat
      (removeBrackets (removeParens s))))) :=
    nf_sub (pref_sub hpre6) hn5
  have hclean : clean_artist_name_grammy (some s) = stripWs (stripWs (collapseWs
      (subTrunc matchComma (subTrunc matchAmp (subTrunc matchFt (subTrunc matchFeat
        (removeBrackets (removeParens s)))))))) := rfl
  have hnu : '\n' ∉ collapseWs (subTrunc matchComma (subTrunc matchAmp (subTrunc matchFt
      (subTrunc matchFeat (removeBrackets (removeParens s)))))) := collapse_nf hn6
  have hsubT : List.Sublist (clean_artist_name_grammy (some s)) (collapseWs
      (subTrunc matchComma (subTrunc matchAmp (subTrunc matchFt (subTrunc matchFeat
        (removeBrackets (removeParens s))))))) := by
    rw [hclean]
    exact (strip_sub _).trans (strip_sub _)
  have hnt : '\n' ∉ clean_artist_name_grammy (some s) := nf_sub hsubT hnu
  have hsub_q6 : ∀ {x : List Char}, List.Sublist x (subTrunc matchComma (subTrunc matchAmp
      (subTrunc matchFt (subTrunc matchFeat (removeBrackets (removeParens s)))))) →
      List.Sublist x (removeParens s) := fun hx =>
    hx.trans ((pref_sub hpre6).trans ((pref_sub hpre5).trans ((pref_sub hpre4).trans
      ((pref_sub hpre3).trans (removeDelim_sub _ _ _)))))
  have hstrip2 : ∀ {tok : List Char}, ciOcc tok (collapseWs (subTrunc matchComma (subTrunc
      matchAmp (subTrunc matchFt (subTrunc matchFeat (removeBrackets (removeParens s))))))) =
      false → ciOcc tok (clean_artist_name_grammy (some s)) = false := by
    intro tok h
    rw [hclean]
    exact ciOcc_strip_false (ciOcc_strip_false h)
  refine ⟨hnt, ?_, ?_, ?_, ?_, ?_, ?_, ?_, ?_⟩
  · have hq6 : hasPairB '(' ')' (subTrunc matchComma (subTrunc matchAmp (subTrunc matchFt
        (subTrunc matchFeat (removeBrackets (removeParens s)))))) = false :=
      hasPair_sub_false (hsub_q6 (List.Sublist.refl _)) (removeDelim_noPair '(' ')' s)
    exact hasPair_sub_false hsubT (hasPair_collapse_false (by decide) (by decide) hq6)
  · have hq2 : List.Sublist (subTrunc matchComma (subTrunc matchAmp (subTrunc matchFt
        (subTrunc matchFeat (removeBrackets (removeParens s))))))
        (removeBrackets (removeParens s)) :=
      (pref_sub hpre6).trans ((pref_sub hpre5).trans ((pref_sub hpre4).trans (pref_sub hpre3)))
    have hq6 : hasPairB '[' ']' (subTrunc matchComma (subTrunc matchAmp (subTrunc matchFt
        (subTrunc matchFeat (removeBrackets (removeParens s)))))) = false :=
      hasPair_sub_false hq2 (removeDelim_noPair '[' ']' (removeParens s))
    exact hasPair_sub_false hsubT (hasPair_collapse_false (by decide) (by decide) hq6)
  · have hocc3 := subTrunc_noMatch mf_nil mf_nf mf_mono hn2
    have hci3 : ciOcc (strL "feat") (subTrunc matchFeat (removeBrackets (removeParens s))) =
        false := (noOcc_iff_ciOcc hn3 (fun t ht => mf_iff ht)).mp hocc3
    have hci4 := ciOcc_pre_false hpre4 hci3
    have hci5 := ciOcc_pre_false hpre5 hci4
    have hci6 := ciOcc_pre_false hpre6 hci5
    exact hstrip2 (ciOcc_collapse_false (by decide) (by decide) hci6)
  · have hocc4 := subTrunc_noMatch mft_nil mft_nf mft_mono hn3
    have hci4 : ciOcc (strL "ft") (subTrunc matchFt (subTrunc matchFeat
        (removeBrackets (removeParens s)))) = false :=
      (noOcc_iff_ciOcc hn4 (fun t ht => mft_iff ht)).mp hocc4
    have hci5 := ciOcc_pre_false hpre5 hci4
    have hci6 := ciOcc_pre_false hpre6 hci5
    exact hstrip2 (ciOcc_collapse_false (by decide) (by decide) hci6)
  · have hocc5 := subTrunc_noMatch ma_nil ma_nf ma_mono hn4
    have hm5 : '&' ∉ subTrunc matchAmp (subTrunc matchFt (subTrunc matchFeat
        (removeBrackets (removeParens s)))) :=
      (noOcc_iff_mem hn5 (fun t ht => ma_iff ht)).mp hocc5
    have hm6 := not_mem_sub (pref_sub hpre6) hm5
    exact not_mem_sub hsubT (not_mem_collapse (by decide) hm6)
  · have hocc6 := subTrunc_noMatch mc_nil mc_nf mc_mono hn5
    have hm6 : ',' ∉ subTrunc matchComma (subTrunc matchAmp (subTrunc matchFt (subTrunc matchFeat
        (removeBrackets (removeParens s))))) :=
      (noOcc_iff_mem hn6 (fun t ht => mc_iff ht)).mp hocc6
    exact not_mem_sub hsubT (not_mem_collapse (by decide) hm6)
  · have hg : goodWs (clean_artist_name_grammy (some s)) = true := by
      rw [hclean]
      exact goodWs_strip (goodWs_strip (goodWs_collapse _))
    exact collapse_fix hg
  · rw [hclean]
    exact strip_strip _

/-- C2, amended: both variants of `clean_artist_name` are idempotent on
every credit string without newline characters, and on missing input; the
counterexample shows idempotence fails on strings with embedded newlines
because of the `$` anchor of the suffix rules. -/
theorem claim2_idempotent_no_newline (s : List Char) (hnf : '\n' ∉ s) :
    clean_artist_name_cross (some (clean_artist_name_cross (some s))) =
      clean_artist_name_cross (some s) ∧
    clean_artist_name_grammy (some (clean_artist_name_grammy (some s))) =
      clean_artist_name_grammy (some s) ∧
    clean_artist_name_cross (some (clean_artist_name_cross none)) =
      clean_artist_name_cross none ∧
    clean_artist_name_grammy (some (clean_artist_name_grammy none)) =
      clean_artist_name_grammy none := by
  obtain ⟨h0, h1, h2, h3, h4, h5, h6⟩ := cross_facts s hnf
  obtain ⟨g0, g1, g2, g3, g4, g5, g6, g7, g8⟩ := grammy_facts s hnf
  refine ⟨cross_clean_fix h1 h2 h3 h4 h5 h6, ?_, rfl, rfl⟩
  refine grammy_clean_fix g1 g2 ?_ ?_ ?_ ?_ g7 g8
  · exact (noOcc_iff_ciOcc g0 (fun t ht => mf_iff ht)).mpr g3
  · exact (noOcc_iff_ciOcc g0 (fun t ht => mft_iff ht)).mpr g4
  · exact (noOcc_iff_mem g0 (fun t ht => ma_iff ht)).mpr g5
  · exact (noOcc_iff_mem g0 (fun t ht => mc_iff ht)).mpr g6

/-- C2, witness for the amended theorem at a concrete credit string. -/
theorem claim2_idempotent_no_newline_witness :
    clean_artist_name_cross (some (clean_artist_name_cross
      (some (strL "Artist A feat. Artist B (Live)")))) =
      clean_artist_name_cross (some (strL "Artist A feat. Artist B (Live)")) ∧
    clean_artist_name_grammy (some (clean_artist_name_grammy
      (some (strL "Artist A feat. Artist B (Live)")))) =
      clean_artist_name_grammy (some (strL "Artist A feat. Artist B (Live)")) ∧
    clean_artist_name_cross (some (clean_artist_name_cross none)) =
      clean_artist_name_cross none ∧
    clean_artist_name_grammy (some (clean_artist_name_grammy none)) =
      clean_artist_name_grammy none :=
  claim2_idempotent_no_newline (strL "Artist A feat. Artist B (Live)") (by decide)

/-- C6, amended: on newline-free input each normalizer's output contains
no parenthesised span and no bracketed span, and contains no occurrence of
the markers its own rules remove: for `cross_analysis.py` no
whitespace-preceded `feat.`, no whitespace-preceded ampersand and no
whitespace-delimited `x`; for `grammy_spotify_analysis.py` no `feat`, no
`ft`, no ampersand and no comma.  (The counterexamples show that each
variant keeps a marker the other removes.) -/
theorem claim6_output_guarantees (s : List Char) (hnf : '\n' ∉ s) :
    hasPairB '(' ')' (clean_artist_name_cross (some s)) = false ∧
    hasPairB '[' ']' (clean_artist_name_cross (some s)) = false ∧
    noOccB matchWsFeatDot (clean_artist_name_cross (some s)) = true ∧
    noOccB matchWsAmp (clean_artist_name_cross (some s)) = true ∧
    noOccB matchWsXWs (clean_artist_name_cross (some s)) = true ∧
    hasPairB '(' ')' (clean_artist_name_grammy (some s)) = false ∧
    hasPairB '[' ']' (clean_artist_name_grammy (some s)) = false ∧
    ciOcc (strL "feat") (clean_artist_name_grammy (some s)) = false ∧
    ciOcc (strL "ft") (clean_artist_name_grammy (some s)) = false ∧
    '&' ∉ clean_artist_name_grammy (some s) ∧
    ',' ∉ clean_artist_name_grammy (some s) := by
  obtain ⟨h0, h1, h2, h3, h4, h5, h6⟩ := cross_facts s hnf
  obtain ⟨g0, g1, g2, g3, g4, g5, g6, g7, g8⟩ := grammy_facts s hnf
  exact ⟨h1, h2, (noOccB_iff mfd_nil).mpr h3, (noOccB_iff mwa_nil).mpr h4,
    (noOccB_iff mwx_nil).mpr h5, g1, g2, g3, g4, g5, g6⟩

/-- C6, witness for the amended theorem at a concrete credit string. -/
theorem claim6_output_guarantees_witness :
    hasPairB '(' ')' (clean_artist_name_cross
      (some (strL "Artist A (Live) [Remix] & Artist B"))) = false ∧
    hasPairB '[' ']' (clean_artist_name_cross
      (some (strL "Artist A (Live) [Remix] & Artist B"))) = false ∧
    noOccB matchWsFeatDot (clean_artist_name_cross
      (some (strL "Artist A (Live) [Remix] & Artist B"))) = true ∧
    noOccB matchWsAmp (clean_artist_name_cross
      (some (strL "Artist A (Live) [Remix] & Artist B"))) = true ∧
    noOccB matchWsXWs (clean_artist_name_cross
      (some (strL "Artist A (Live) [Remix] & Artist B"))) = true ∧
    hasPairB '(' ')' (clean_artist_name_grammy
      (some (strL "Artist A (Live) [Remix] & Artist B"))) = false ∧
    hasPairB '[' ']' (clean_artist_name_grammy
      (some (strL "Artist A (Live) [Remix] & Artist B"))) = false ∧
    ciOcc (strL "feat") (clean_artist_name_grammy
      (some (strL "Artist A (Live) [Remix] & Artist B"))) = false ∧
    ciOcc (strL "ft") (clean_artist_name_grammy
      (some (strL "Artist A (Live) [Remix] & Artist B"))) = false ∧
    '&' ∉ clean_artist_name_grammy (some (strL "Artist A (Live) [Remix] & Artist B")) ∧
    ',' ∉ clean_artist_name_grammy (some (strL "Artist A (Live) [Remix] & Artist B")) :=
  claim6_output_guarantees (strL "Artist A (Live) [Remix] & Artist B") (by decide)

theorem or_false_left {a b : Bool} (h : (a || b) = false) : a = false := by
  cases a
  · rfl
  · rw [Bool.true_or] at h; exact h

theorem or_false_right {a b : Bool} (h : (a || b) = false) : b = false := by
  cases b
  · rfl
  · rw [Bool.or_true] at h; exact h

theorem bool_eq_of_iff {a b : Bool} (h : a = true ↔ b = true) : a = b := by
  cases a with
  | true => exact (h.mp rfl).symm
  | false =>
    cases b with
    | true => exact Bool.noConfusion (h.mpr rfl)
    | false => rfl

theorem take_pref (l : List Char) (n : Nat) : pref (l.take n) l :=
  ⟨l.drop n, List.take_append_drop n l⟩

theorem firstIdxP_some {p : List Char → Bool} : ∀ {l : List Char} {i : Nat},
    firstIdxP p l = some i → p (l.drop i) = true ∧ ∀ j < i, p (l.drop j) = false := by
  intro l
  induction l with
  | nil => intro i h; cases h
  | cons c r ih =>
    intro i h
    rw [firstIdxP] at h
    split at h
    case isTrue hp =>
      have hi : i = 0 := (Option.some.inj h).symm
      subst hi
      refine ⟨by rw [List.drop_zero]; exact hp, ?_⟩
      intro j hj
      omega
    case isFalse hp =>
      cases hr : firstIdxP p r with
      | none => rw [hr] at h; cases h
      | some j0 =>
        rw [hr] at h
        simp only [Option.map_some'] at h
        have hi : i = j0 + 1 := (Option.some.inj h).symm
        subst hi
        obtain ⟨ha, hb⟩ := ih hr
        refine ⟨by rw [List.drop_succ_cons]; exact ha, ?_⟩
        intro j hj
        cases j with
        | zero =>
          rw [List.drop_zero]
          cases hcc : p (c :: r)
          · rfl
          · exact absurd hcc hp
        | succ j2 =>
          rw [List.drop_succ_cons]
          exact hb j2 (by omega)

theorem firstIdxP_intro {p : List Char → Bool} (hnil : p [] = false) : ∀ {l : List Char}
    {i : Nat}, p (l.drop i) = true → (∀ j < i, p (l.drop j) = false) →
    firstIdxP p l = some i := by
  intro l
  induction l with
  | nil =>
    intro i hp _
    rw [List.drop_nil, hnil] at hp
    cases hp
  | cons c r ih =>
    intro i hp hmin
    rw [firstIdxP]
    cases i with
    | zero =>
      rw [List.drop_zero] at hp
      rw [if_pos hp]
    | succ j =>
      have h0 : p (c :: r) = false := by
        have hd := hmin 0 (by omega)
        rwa [List.drop_zero] at hd
      rw [if_neg (by rw [h0]; exact Bool.false_ne_true)]
      rw [ih (by rwa [List.drop_succ_cons] at hp)
        (fun j2 hj2 => by
          have hd := hmin (j2 + 1) (by omega)
          rwa [List.drop_succ_cons] at hd)]
      rfl

theorem firstIdxP_none_intro {p : List Char → Bool} : ∀ {l : List Char},
    (∀ j, p (l.drop j) = false) → firstIdxP p l = none := by
  intro l
  induction l with
  | nil => intro _; rfl
  | cons c r ih =>
    intro h
    rw [firstIdxP]
    rw [if_neg (by
      have hd := h 0
      rw [List.drop_zero] at hd
      rw [hd]
      exact Bool.false_ne_true)]
    rw [ih (fun j => by
      have hd := h (j + 1)
      rwa [List.drop_succ_cons] at hd)]
    rfl

theorem firstIdxP_congr {p q : List Char → Bool}
    (hpq : ∀ t, '\n' ∉ t → p t = q t) : ∀ {l : List Char}, '\n' ∉ l →
      firstIdxP p l = firstIdxP q l := by
  intro l
  induction l with
  | nil => intro _; rfl
  | cons c r ih =>
    intro hn
    rw [firstIdxP, firstIdxP, hpq _ hn, ih (fun hx => hn (List.mem_cons_of_mem c hx))]

theorem subTrunc_take {m : List Char → Option (List Char)}
    (hnf : ∀ l u, '\n' ∉ l → m l = some u → u = []) :
    ∀ {l : List Char} {i : Nat}, '\n' ∉ l →
      firstIdxP (fun t => (m t).isSome) l = some i → subTrunc m l = l.take i := by
  intro l
  induction l with
  | nil => intro i _ h; cases h
  | cons c r ih =>
    intro i hn h
    rw [firstIdxP] at h
    split at h
    case isTrue hp =>
      have hi : i = 0 := (Option.some.inj h).symm
      subst hi
      rw [List.take_zero, subTrunc]
      cases hm : m (c :: r) with
      | some u => exact hnf _ _ hn hm
      | none => rw [hm] at hp; cases hp
    case isFalse hp =>
      cases hr : firstIdxP (fun t => (m t).isSome) r with
      | none => rw [hr] at h; cases h
      | some j =>
        rw [hr] at h
        simp only [Option.map_some'] at h
        have hi : i = j + 1 := (Option.some.inj h).symm
        subst hi
        rw [List.take_succ_cons, subTrunc]
        cases hm : m (c :: r) with
        | some u => exact absurd (by rw [hm]; rfl) hp
        | none =>
          rw [ih (fun hx => hn (List.mem_cons_of_mem c hx)) hr]

theorem firstIdxP_none {p : List Char → Bool} (hnil : p [] = false) : ∀ {l : List Char},
    firstIdxP p l = none → ∀ j, p (l.drop j) = false := by
  intro l
  induction l with
  | nil => intro _ j; rw [List.drop_nil]; exact hnil
  | cons c r ih =>
    intro h j
    rw [firstIdxP] at h
    split at h
    case isTrue hp => cases h
    case isFalse hp =>
      have hr : firstIdxP p r = none := by
        cases hx : firstIdxP p r with
        | none => rfl
        | some v => rw [hx] at h; cases h
      cases j with
      | zero =>
        rw [List.drop_zero]
        cases hcc : p (c :: r)
        · rfl
        · exact absurd hcc hp
      | succ j2 =>
        rw [List.drop_succ_cons]
        exact ih hr j2

theorem subTrunc_none {m : List Char → Option (List Char)} (hnil : m [] = none)
    {l : List Char} (h : firstIdxP (fun t => (m t).isSome) l = none) :
    subTrunc m l = l := by
  apply subTrunc_id
  intro i
  have hfalse := firstIdxP_none (p := fun t => (m t).isSome)
    (by show (m []).isSome = false; rw [hnil]; rfl) h i
  cases hm : m (l.drop i) with
  | none => rfl
  | some u => rw [hm] at hfalse; cases hfalse

/-- C10, amended: on every newline-free input, the feat/ft removal stage
of `grammy_spotify_analysis.clean_artist_name` truncates the string
exactly at the first case-insensitive occurrence of `feat` or `ft` — at
any position, with no word boundary — and consequently
`clean_artist_name("Taylor Swift") = "Taylor Swi"`.  (The counterexample
shows the removal can be blocked on inputs with an embedded newline.) -/
theorem claim10_feat_ft_truncation (s : List Char) (i : Nat) (hnf : '\n' ∉ s)
    (hi : firstFeatFt s = some i) :
    subTrunc matchFt (subTrunc matchFeat s) = s.take i ∧
    clean_artist_name_grammy (some (strL "Taylor Swift")) = strL "Taylor Swi" := by
  refine ⟨?_, rfl⟩
  obtain ⟨hR, hRmin⟩ := firstIdxP_some hi
  have hPmin : ∀ j < i, ciStartsWith (strL "feat") (s.drop j) = false :=
    fun j hj => or_false_left (hRmin j hj)
  have hQmin : ∀ j < i, ciStartsWith (strL "ft") (s.drop j) = false :=
    fun j hj => or_false_right (hRmin j hj)
  have hfeat_congr : ∀ {l : List Char}, '\n' ∉ l →
      firstIdxP (fun t => (matchFeat t).isSome) l =
      firstIdxP (fun t => ciStartsWith (strL "feat") t) l :=
    fun hn => firstIdxP_congr (fun t ht => bool_eq_of_iff (mf_iff ht)) hn
  have hft_congr : ∀ {l : List Char}, '\n' ∉ l →
      firstIdxP (fun t => (matchFt t).isSome) l =
      firstIdxP (fun t => ciStartsWith (strL "ft") t) l :=
    fun hn => firstIdxP_congr (fun t ht => bool_eq_of_iff (mft_iff ht)) hn
  have hnil_feat : ciStartsWith (strL "feat") ([] : List Char) = false := by decide
  have hnil_ft : ciStartsWith (strL "ft") ([] : List Char) = false := by decide
  cases hP0 : ciStartsWith (strL "feat") (s.drop i) with
  | true =>
    have hfidx : firstIdxP (fun t => (matchFeat t).isSome) s = some i := by
      rw [hfeat_congr hnf]
      exact firstIdxP_intro hnil_feat hP0 hPmin
    rw [subTrunc_take mf_nf hnf hfidx]
    apply subTrunc_none mft_nil
    rw [hft_congr (nf_sub (List.take_sublist _ _) hnf)]
    apply firstIdxP_none_intro
    intro j
    by_cases hj : j < i
    · cases hq : ciStartsWith (strL "ft") ((s.take i).drop j) with
      | false => rfl
      | true =>
        exfalso
        have hpq : pref ((s.take i).drop j) (s.drop j) := by
          rw [List.drop_take]
          exact take_pref _ _
        have hlift := ciSW_pre hpq hq
        rw [hQmin j hj] at hlift
        cases hlift
    · rw [List.drop_eq_nil_of_le (by rw [List.length_take]; omega)]
      exact hnil_ft
  | false =>
    have hQ0 : ciStartsWith (strL "ft") (s.drop i) = true := by
      cases hq : ciStartsWith (strL "ft") (s.drop i) with
      | true => rfl
      | false => rw [hP0, hq] at hR; cases hR
    cases hA : firstIdxP (fun t => ciStartsWith (strL "feat") t) s with
    | none =>
      have hstage1 : subTrunc matchFeat s = s := by
        apply subTrunc_none mf_nil
        rw [hfeat_congr hnf]
        exact hA
      rw [hstage1]
      apply subTrunc_take mft_nf hnf
      rw [hft_congr hnf]
      exact firstIdxP_intro hnil_ft hQ0 hQmin
    | some a =>
      obtain ⟨hPa, hPamin⟩ := firstIdxP_some hA
      have hia : i < a := by
        rcases Nat.lt_trichotomy i a with h | h | h
        · exact h
        · exfalso; rw [← h, hP0] at hPa; cases hPa
        · exfalso
          have hfa := or_false_left (hRmin a h)
          rw [hPa] at hfa
          cases hfa
      have hftL : strL "ft" = ['f', 't'] := rfl
      have hfeatL : strL "feat" = ['f', 'e', 'a', 't'] := rfl
      have hne : a ≠ i + 1 := by
        intro he
        rw [hftL] at hQ0
        obtain ⟨c, cs, hc, hcf, hrest⟩ := ciSW_cases hQ0
        obtain ⟨d, ds, hd, hdt, -⟩ := ciSW_cases hrest
        have hdrop : s.drop (i + 1) = cs := by
          have h1 : (s.drop i).drop 1 = s.drop (i + 1) := List.drop_drop 1 i s
          rw [← h1, hc]
          rfl
        rw [he, hfeatL, hdrop, hd] at hPa
        obtain ⟨e, es, hee, hef, -⟩ := ciSW_cases hPa
        injection hee with h1 h2
        rw [← h1] at hef
        exact absurd (hef.symm.trans hdt) (by decide)
      have hia2 : i + 2 ≤ a := by omega
      have hstage1 : subTrunc matchFeat s = s.take a := by
        apply subTrunc_take mf_nf hnf
        rw [hfeat_congr hnf]
        exact hA
      rw [hstage1]
      have hidx : firstIdxP (fun t => ciStartsWith (strL "ft") t) (s.take a) = some i := by
        apply firstIdxP_intro hnil_ft
        · rw [List.drop_take]
          apply ciSW_take hQ0
          show (strL "ft").length ≤ a - i
          have hl2 : (strL "ft").length = 2 := rfl
          omega
        · intro j hj
          cases hq : ciStartsWith (strL "ft") ((s.take a).drop j) with
          | false => rfl
          | true =>
            exfalso
            have hpq : pref ((s.take a).drop j) (s.drop j) := by
              rw [List.drop_take]
              exact take_pref _ _
            have hlift := ciSW_pre hpq hq
            rw [hQmin j hj] at hlift
            cases hlift
      have hstage2 : subTrunc matchFt (s.take a) = (s.take a).take i := by
        apply subTrunc_take mft_nf (nf_sub (List.take_sublist _ _) hnf)
        rw [hft_congr (nf_sub (List.take_sublist _ _) hnf)]
        exact hidx
      rw [hstage2, List.take_take, min_eq_left (le_of_lt hia)]

/-- C10, witness: at `"Taylor Swift"` the first occurrence is the `ft` at
position 10, inside the surname, and the stage truncates there. -/
theorem claim10_feat_ft_truncation_witness :
    subTrunc matchFt (subTrunc matchFeat (strL "Taylor Swift")) =
      (strL "Taylor Swift").take 10 ∧
    clean_artist_name_grammy (some (strL "Taylor Swift")) = strL "Taylor Swi" :=
  claim10_feat_ft_truncation (strL "Taylor Swift") 10 (by decide) (by decide)

end GrammySpotify
